import Mathlib

/-!
Verification of the selective tree copier `copyNotGitignoreTree` from
`scripts/create_release.py`.

The copier is modelled over an explicit filesystem embedding:

* the source tree is an immutable `FSTree` (regular files carry their byte
  content together with the metadata that `shutil.copy2` transfers:
  modification time and permission bits);
* the destination is an association list from relative paths to entries,
  read through `getD`, so that writing shadows earlier bindings exactly the
  way a filesystem write replaces the previous content;
* fallible operations return `Except CopyErr Dest`, mirroring the Python
  exceptions (`FileNotFoundError`, `NotADirectoryError`/`FileExistsError`
  from `os.makedirs`, `IsADirectoryError` from writing onto a directory).

Paths are lists of name components; the Python code joins components with
the platform separator, so component lists are the faithful abstraction.
-/

set_option autoImplicit false

namespace CreateRelease

/-- Relative filesystem path, as the list of its name components. -/
abbrev Path := List String

/-- Contents of a regular file together with the metadata copied by
`shutil.copy2`: at minimum the modification time and the permission bits. -/
structure FileData where
  content : List Nat
  mtime : Nat
  mode : Nat
deriving DecidableEq

/-- A node of the source tree: a regular file, or a directory with named
children.  The order of the child list models the order in which
`os.listdir` enumerates the directory, which Python documents as arbitrary;
the script iterates over the listing exactly as returned. -/
inductive FSTree where
  | file : FileData → FSTree
  | dir : List (String × FSTree) → FSTree

/-- An entry of the destination filesystem: a regular file or a directory. -/
inductive DEntry where
  | file : FileData → DEntry
  | dir : DEntry
deriving DecidableEq

/-- Error conditions raised by the copy: `notFound` models
`FileNotFoundError` from `shutil.copy2` on a missing source, `notADir`
models `os.makedirs` failing because a destination ancestor exists as a
regular file, `isADir` models `IsADirectoryError` from writing file content
onto a directory, and `outOfFuel` is the artificial bound of the
fuel-indexed recursion used to state termination. -/
inductive CopyErr where
  | notFound : Path → CopyErr
  | notADir : Path → CopyErr
  | isADir : Path → CopyErr
  | outOfFuel : CopyErr
deriving DecidableEq

/-- Destination filesystem state: an association list from relative paths
(relative to the destination root `targetBase`) to entries.  The
destination root itself is implicitly an existing directory. -/
abbrev Dest := List (Path × DEntry)

/-- Read the destination at a path; the first binding wins, so a later
write shadows earlier content. -/
def getD : Dest → Path → Option DEntry
  | [], _ => none
  | e :: rest, p => if e.1 = p then some e.2 else getD rest p

/-- Write an entry at a path of the destination. -/
def setD (d : Dest) (p : Path) (e : DEntry) : Dest :=
  (p, e) :: d

/-- Model of `os.path.isdir` on the destination: the destination root `[]`
is always a directory, any other path is a directory iff it is bound to a
directory entry. -/
def isdirD (d : Dest) (p : Path) : Bool :=
  p.isEmpty || (getD d p == some DEntry.dir)

/-- Model of `os.path.basename`: the last component of a relative path. -/
def baseName (p : Path) : String :=
  p.getLastD ""

/-- Walk the components `todo` below the already-ensured prefix `pre`,
creating every missing intermediate directory; fails like `os.makedirs`
when a component exists as a regular file. -/
def mkdirs : Dest → Path → Path → Except CopyErr Dest
  | d, _, [] => Except.ok d
  | d, pre, n :: rest =>
    match getD d (pre ++ [n]) with
    | some DEntry.dir => mkdirs d (pre ++ [n]) rest
    | some (DEntry.file _) => Except.error (CopyErr.notADir (pre ++ [n]))
    | none => mkdirs (setD d (pre ++ [n]) DEntry.dir) (pre ++ [n]) rest

/-- Model of `os.makedirs`: create all missing intermediate directories of
a destination path. -/
def makedirs (d : Dest) (p : Path) : Except CopyErr Dest :=
  mkdirs d [] p

/-- Model of `shutil.copy2 source target` for an existing source file with
data `fd`.  Following the documented `shutil` behaviour, if the target is
an existing directory the file is copied into it under the source's base
name; writing onto a directory fails with `IsADirectoryError`; writing onto
an existing file replaces its content and metadata. -/
def copy2 (d : Dest) (rel : Path) (fd : FileData) : Except CopyErr Dest :=
  let tgt := if getD d rel = some DEntry.dir then rel ++ [baseName rel] else rel
  match getD d tgt with
  | some DEntry.dir => Except.error (CopyErr.isADir tgt)
  | _ => Except.ok (setD d tgt (DEntry.file fd))

/-- Lines 162-163 of the script: if the target's parent directory does not
exist, create it (with all missing intermediate directories). -/
def ensureParent (d : Dest) (rel : Path) : Except CopyErr Dest :=
  if isdirD d rel.dropLast then Except.ok d else makedirs d rel.dropLast

/-- The non-directory branch of `copyNotGitignoreTree` (lines 160-164) for
a source file that exists: skip when the relative path is excluded,
otherwise ensure the parent directory of the target exists (creating all
missing intermediate directories) and copy content and metadata. -/
def copyLeaf (gi : Path → Bool) (rel : Path) (fd : FileData) (d : Dest) :
    Except CopyErr Dest :=
  if gi rel then Except.ok d
  else
    match ensureParent d rel with
    | Except.error e => Except.error e
    | Except.ok d1 => copy2 d1 rel fd

mutual

/-- Structural core of `copyNotGitignoreTree` on the subtree reached by
`rel`: a directory is always descended into (no exclusion check at the
directory level, lines 157-159), a file goes through the exclusion check
and the copy (lines 160-164). -/
def copyTree (gi : Path → Bool) : FSTree → Path → Dest → Except CopyErr Dest
  | FSTree.file fd, rel, d => copyLeaf gi rel fd d
  | FSTree.dir cs, rel, d => copyChildren gi cs rel d

/-- Recurse over the direct children of a directory in listing order,
extending the relative path by the child name; an exception aborts the
whole run, as in Python. -/
def copyChildren (gi : Path → Bool) :
    List (String × FSTree) → Path → Dest → Except CopyErr Dest
  | [], _, d => Except.ok d
  | (n, t) :: rest, rel, d =>
    match copyTree gi t (rel ++ [n]) d with
    | Except.ok d1 => copyChildren gi rest rel d1
    | Except.error e => Except.error e

end

/-- Resolve a relative path inside a source tree (model of following
`sourceBase + sep + relative` on disk). -/
def lookupPath : FSTree → Path → Option FSTree
  | t, [] => some t
  | FSTree.file _, _ :: _ => none
  | FSTree.dir cs, n :: rest =>
    match cs.find? (fun c => c.1 == n) with
    | some c => lookupPath c.2 rest
    | none => none

/-- Model of `copyNotGitignoreTree(sourceBase, targetBase, relative,
gitignore)` (lines 154-164).  `src` is the tree rooted at `sourceBase`.
When the resolved source path is a directory the walk descends; otherwise
(existing file or missing path) the else-branch runs: an excluded entry is
skipped silently, a non-excluded entry first ensures the target's parent
directory and then copies, which on a missing source raises
`FileNotFoundError` only after the directories were created. -/
def copyNotGitignoreTree (src : FSTree) (gi : Path → Bool) (rel : Path)
    (d : Dest) : Except CopyErr Dest :=
  match lookupPath src rel with
  | some t => copyTree gi t rel d
  | none =>
    if gi rel then Except.ok d
    else
      match ensureParent d rel with
      | Except.error e => Except.error e
      | Except.ok _ => Except.error (CopyErr.notFound rel)

mutual

/-- All files of a subtree, paired with their mirrored relative paths, in
the order the walk visits them. -/
def filesOf : FSTree → Path → List (Path × FileData)
  | FSTree.file fd, rel => [(rel, fd)]
  | FSTree.dir cs, rel => filesOfList cs rel

/-- Files of a list of named children, in listing order. -/
def filesOfList : List (String × FSTree) → Path → List (Path × FileData)
  | [], _ => []
  | (n, t) :: rest, rel => filesOf t (rel ++ [n]) ++ filesOfList rest rel

end

/-- Process a flat list of source files through the leaf operation, left to
right, aborting on the first error.  The mutual recursion of the copier is
proved equal to this flat form on `filesOf`. -/
def processFiles (gi : Path → Bool) :
    List (Path × FileData) → Dest → Except CopyErr Dest
  | [], d => Except.ok d
  | pf :: rest, d =>
    match copyLeaf gi pf.1 pf.2 d with
    | Except.ok d1 => processFiles gi rest d1
    | Except.error e => Except.error e

/-- Decidable check that the names of a child list are pairwise distinct,
as the entries of one real directory always are. -/
def namesNodup : List (String × FSTree) → Bool
  | [] => true
  | c :: rest => (!(rest.any (fun c2 => c2.1 == c.1))) && namesNodup rest

mutual

/-- Wellformedness of a source tree: every directory has pairwise distinct
child names (true of any tree read from a real filesystem). -/
def wf : FSTree → Bool
  | FSTree.file _ => true
  | FSTree.dir cs => namesNodup cs && wfList cs

/-- Wellformedness of every tree in a child list. -/
def wfList : List (String × FSTree) → Bool
  | [] => true
  | c :: rest => wf c.2 && wfList rest

end

mutual

/-- Depth of a source tree (files have depth zero). -/
def depth : FSTree → Nat
  | FSTree.file _ => 0
  | FSTree.dir cs => depthList cs + 1

/-- Maximal depth of the trees in a child list. -/
def depthList : List (String × FSTree) → Nat
  | [] => 0
  | c :: rest => max (depth c.2) (depthList rest)

end

/-- Depth of the subtree reached by a relative entry (zero when nothing is
there). -/
def reachDepth (src : FSTree) (rel : Path) : Nat :=
  match lookupPath src rel with
  | some t => depth t
  | none => 0

mutual

/-- Fuel-indexed version of `copyNotGitignoreTree`, written exactly in the
shape of the Python recursion (re-resolving the relative path from the root
at every call); the fuel bounds the recursion depth. -/
def copyFuel (src : FSTree) (gi : Path → Bool) :
    Nat → Path → Dest → Except CopyErr Dest
  | 0, _, _ => Except.error CopyErr.outOfFuel
  | Nat.succ n, rel, d =>
    match lookupPath src rel with
    | some (FSTree.dir cs) => copyFuelList src gi n cs rel d
    | some (FSTree.file fd) => copyLeaf gi rel fd d
    | none =>
      if gi rel then Except.ok d
      else
        match ensureParent d rel with
        | Except.error e => Except.error e
        | Except.ok _ => Except.error (CopyErr.notFound rel)

/-- Children loop of the fuel-indexed copier. -/
def copyFuelList (src : FSTree) (gi : Path → Bool) :
    Nat → List (String × FSTree) → Path → Dest → Except CopyErr Dest
  | _, [], _, d => Except.ok d
  | n, (nm, _) :: rest, rel, d =>
    match copyFuel src gi n (rel ++ [nm]) d with
    | Except.ok d1 => copyFuelList src gi n rest rel d1
    | Except.error e => Except.error e

end

/-- The nonempty proper path segments below a path: its private prefix
chain, used for the decidable destination wellformedness check. -/
def properAncestors (p : Path) : List Path :=
  (List.range (p.length - 1)).map (fun i => p.take (i + 1))

/-- Decidable wellformedness of a destination state: the ancestors of
every bound path are directories — the invariant any tree of paths on a
real filesystem satisfies. -/
def destWFb (d : Dest) : Bool :=
  d.all (fun e => (properAncestors e.1).all
    (fun r => getD d r == some DEntry.dir))

/-- Propositional form of destination wellformedness. -/
def DestWF (d : Dest) : Prop :=
  ∀ q r, getD d q ≠ none → r <+: q → r ≠ q → r ≠ [] →
    getD d r = some DEntry.dir

/-- Two file entries with incomparable paths: neither mirrored path is a
prefix of the other (in particular they differ). -/
def PathsIncomp (a b : Path × FileData) : Prop :=
  ¬ a.1 <+: b.1 ∧ ¬ b.1 <+: a.1

/-- Pairwise incomparability of the mirrored paths of a file list; holds
for the files of any wellformed source tree. -/
def IncompList (l : List (Path × FileData)) : Prop :=
  List.Pairwise PathsIncomp l

/-! ### Sample data used to exercise the theorems on concrete inputs -/

/-- Sample file data. -/
def fileB : FileData := FileData.mk [1] 10 7

/-- Sample file data. -/
def fileC : FileData := FileData.mk [2] 20 6

/-- A sample directory with one kept and one ignored file. -/
def sampleSub : FSTree :=
  FSTree.dir [("b.txt", FSTree.file fileB), ("c.log", FSTree.file fileC)]

/-- A sample source root containing `sampleSub` under the name `a`. -/
def sampleTree : FSTree := FSTree.dir [("a", sampleSub)]

/-- A sample exclusion predicate: exclude paths whose base name is
`c.log`. -/
def sampleGi : Path → Bool := fun p => baseName p == "c.log"

/-- The destination produced by copying entry `a` of `sampleTree` into an
empty destination under `sampleGi`. -/
def sampleOut : Dest :=
  [(["a", "b.txt"], DEntry.file fileB), (["a"], DEntry.dir)]

/-- A sample directory holding a single file `x`. -/
def dSub : FSTree := FSTree.dir [("x", FSTree.file fileB)]

/-- A sample root containing `dSub` under the name `d`. -/
def dTree : FSTree := FSTree.dir [("d", dSub)]

/-- A sample directory holding only an ignored file. -/
def eSub : FSTree := FSTree.dir [("x.log", FSTree.file fileC)]

/-- A sample root containing `eSub` under the name `e`. -/
def eTree : FSTree := FSTree.dir [("e", eSub)]

/-- Two files listed in the order `b` before `a`. -/
def twoBA : FSTree :=
  FSTree.dir [("b", FSTree.file fileC), ("a", FSTree.file fileB)]

/-- The same two files listed in the order `a` before `b`. -/
def twoAB : FSTree :=
  FSTree.dir [("a", FSTree.file fileB), ("b", FSTree.file fileC)]

/-! ### Basic lemmas about the destination map and paths -/

theorem getD_cons (e : Path × DEntry) (d : Dest) (q : Path) :
    getD (e :: d) q = if e.1 = q then some e.2 else getD d q := rfl

theorem getD_setD (d : Dest) (p : Path) (e : DEntry) (q : Path) :
    getD (setD d p e) q = if p = q then some e else getD d q := rfl

theorem isdirD_true_iff (d : Dest) (p : Path) :
    isdirD d p = true ↔ p = [] ∨ getD d p = some DEntry.dir := by
  simp [isdirD, List.isEmpty_iff]

theorem isdirD_congr {d d' : Dest} (h : ∀ q, getD d' q = getD d q)
    (p : Path) : isdirD d' p = isdirD d p := by
  simp [isdirD, h]

theorem pfx_length_le {r p : Path} (h : r <+: p) : r.length ≤ p.length := by
  obtain ⟨t, rfl⟩ := h
  simp

theorem pfx_eq_of_length {r p : Path} (h : r <+: p)
    (hl : p.length ≤ r.length) : r = p := by
  obtain ⟨t, rfl⟩ := h
  simp at hl
  simp [hl]

theorem pfx_trans {r p q : Path} (h1 : r <+: p) (h2 : p <+: q) : r <+: q := by
  obtain ⟨t, rfl⟩ := h1
  obtain ⟨s, rfl⟩ := h2
  exact ⟨t ++ s, by simp⟩

theorem pfx_snoc_iff {r p : Path} {a : String} :
    r <+: p ++ [a] ↔ r <+: p ∨ r = p ++ [a] := by
  constructor
  · intro h
    rcases Nat.lt_or_ge r.length (p ++ [a]).length with hl | hl
    · left
      obtain ⟨t, ht⟩ := h
      have ht0 : t ≠ [] := by
        rintro rfl
        simp at ht
        subst ht
        simp at hl
      have h1 : r ++ t.dropLast = (p ++ [a]).dropLast := by
        rw [← ht]
        exact (List.dropLast_append_of_ne_nil _ ht0).symm
      rw [show (p ++ [a]).dropLast = p by simp] at h1
      exact ⟨t.dropLast, h1⟩
    · right
      exact pfx_eq_of_length h hl
  · rintro (h | rfl)
    · obtain ⟨t, rfl⟩ := h
      exact ⟨t ++ [a], by simp⟩
    · exact ⟨[], by simp⟩

theorem dropLast_pfx (p : Path) : p.dropLast <+: p := by
  refine ⟨p.getLast?.toList, ?_⟩
  cases p using List.reverseRecOn with
  | nil => simp
  | append_singleton l a => simp

theorem pfx_dropLast_of_proper {r p : Path} (h : r <+: p) (hne : r ≠ p) :
    r <+: p.dropLast := by
  obtain ⟨t, rfl⟩ := h
  have ht : t ≠ [] := by rintro rfl; simp at hne
  rw [List.dropLast_append_of_ne_nil _ ht]
  exact ⟨t.dropLast, rfl⟩

theorem proper_of_pfx_dropLast {r p : Path} (hp : p ≠ [])
    (h : r <+: p.dropLast) : r <+: p ∧ r ≠ p := by
  refine ⟨pfx_trans h (dropLast_pfx p), ?_⟩
  have h1 := pfx_length_le h
  have h2 : p.dropLast.length = p.length - 1 := by simp
  have h3 : 0 < p.length := List.length_pos.mpr hp
  rintro rfl
  omega

theorem pfx_cons {r : Path} {n : String} {l : Path} (h : r <+: n :: l) :
    r = [] ∨ ∃ r', r = n :: r' ∧ r' <+: l := by
  obtain ⟨t, ht⟩ := h
  cases r with
  | nil => exact Or.inl rfl
  | cons a r' =>
    simp at ht
    exact Or.inr ⟨r', by simp [ht.1], ⟨t, ht.2⟩⟩

theorem pfx_two_snoc {rel : Path} {a b : String} {x : Path}
    (ha : rel ++ [a] <+: x) (hb : rel ++ [b] <+: x) : a = b := by
  obtain ⟨s, hs⟩ := ha
  obtain ⟨s', hs'⟩ := hb
  rw [← hs'] at hs
  have : a :: s = b :: s' := by
    have := hs
    rw [List.append_assoc, List.append_assoc] at this
    have := List.append_cancel_left this
    simpa using this
  exact (List.cons.injEq _ _ _ _ ▸ this).1

/-! ### Lemmas about directory creation -/

theorem mkdirs_frame : ∀ (todo : Path) (d : Dest) (pre : Path) (d' : Dest),
    mkdirs d pre todo = Except.ok d' → ∀ q,
    getD d' q = getD d q ∨
      (getD d q = none ∧ getD d' q = some DEntry.dir ∧
        ∃ r, r <+: todo ∧ r ≠ [] ∧ q = pre ++ r) := by
  intro todo
  induction todo with
  | nil =>
    intro d pre d' h q
    simp [mkdirs] at h
    subst h
    exact Or.inl rfl
  | cons n rest ih =>
    intro d pre d' h q
    rw [mkdirs] at h
    cases hg : getD d (pre ++ [n]) with
    | some e =>
      cases e with
      | dir =>
        rw [hg] at h
        rcases ih d (pre ++ [n]) d' h q with h1 | ⟨h1, h2, r, hr, hr0, rfl⟩
        · exact Or.inl h1
        · refine Or.inr ⟨h1, h2, n :: r, ?_, by simp, by simp⟩
          obtain ⟨s, hs⟩ := hr
          exact ⟨s, by simp [hs]⟩
      | file fd =>
        rw [hg] at h
        simp at h
    | none =>
      rw [hg] at h
      rcases ih _ (pre ++ [n]) d' h q with h1 | ⟨h1, h2, r, hr, hr0, rfl⟩
      · rw [getD_setD] at h1
        by_cases he : pre ++ [n] = q
        · subst he
          exact Or.inr ⟨hg, by simp [h1], [n], ⟨rest, rfl⟩, by simp, by simp⟩
        · rw [if_neg he] at h1
          exact Or.inl h1
      · rw [getD_setD] at h1
        by_cases he : pre ++ [n] = pre ++ [n] ++ r
        · exfalso
          have hlen := congrArg List.length he
          simp at hlen
          exact hr0 hlen
        · rw [if_neg he] at h1
          refine Or.inr ⟨h1, h2, n :: r, ?_, by simp, by simp⟩
          obtain ⟨s, hs⟩ := hr
          exact ⟨s, by simp [hs]⟩

theorem mkdirs_dirs_persist : ∀ (todo : Path) (d : Dest) (pre : Path)
    (d' : Dest), mkdirs d pre todo = Except.ok d' → ∀ q,
    getD d q = some DEntry.dir → getD d' q = some DEntry.dir := by
  intro todo d pre d' h q hq
  rcases mkdirs_frame todo d pre d' h q with h1 | ⟨h1, _, _⟩
  · rw [h1, hq]
  · rw [hq] at h1
    cases h1

theorem mkdirs_makes : ∀ (todo : Path) (d : Dest) (pre : Path) (d' : Dest),
    mkdirs d pre todo = Except.ok d' →
    ∀ r, r <+: todo → r ≠ [] → getD d' (pre ++ r) = some DEntry.dir := by
  intro todo
  induction todo with
  | nil =>
    intro d pre d' h r hr hr0
    obtain ⟨s, hs⟩ := hr
    cases r with
    | nil => exact absurd rfl hr0
    | cons a r' => simp at hs
  | cons n rest ih =>
    intro d pre d' h r hr hr0
    rcases pfx_cons hr with rfl | ⟨r', rfl, hr'⟩
    · exact absurd rfl hr0
    rw [mkdirs] at h
    have hsplit : pre ++ n :: r' = (pre ++ [n]) ++ r' := by simp
    cases hg : getD d (pre ++ [n]) with
    | some e =>
      cases e with
      | dir =>
        rw [hg] at h
        cases r' with
        | nil =>
          simpa using mkdirs_dirs_persist rest d (pre ++ [n]) d' h _ hg
        | cons b r'' =>
          rw [hsplit]
          exact ih d (pre ++ [n]) d' h _ hr' (by simp)
      | file fd =>
        rw [hg] at h
        simp at h
    | none =>
      rw [hg] at h
      cases r' with
      | nil =>
        have : getD (setD d (pre ++ [n]) DEntry.dir) (pre ++ [n]) =
            some DEntry.dir := by
          rw [getD_setD, if_pos rfl]
        simpa using mkdirs_dirs_persist rest _ (pre ++ [n]) d' h _ this
      | cons b r'' =>
        rw [hsplit]
        exact ih _ (pre ++ [n]) d' h _ hr' (by simp)

theorem mkdirs_ok : ∀ (todo : Path) (d : Dest) (pre : Path),
    (∀ r fd, r <+: todo → r ≠ [] →
      getD d (pre ++ r) ≠ some (DEntry.file fd)) →
    ∃ d', mkdirs d pre todo = Except.ok d' := by
  intro todo
  induction todo with
  | nil =>
    intro d pre _
    exact ⟨d, by simp [mkdirs]⟩
  | cons n rest ih =>
    intro d pre hnf
    rw [mkdirs]
    cases hg : getD d (pre ++ [n]) with
    | some e =>
      cases e with
      | dir =>
        exact ih d (pre ++ [n]) (fun r fd hr hr0 => by
          obtain ⟨s, hs⟩ := hr
          have := hnf (n :: r) fd ⟨s, by simp [hs]⟩ (by simp)
          simpa using this)
      | file fd =>
        exact absurd hg (hnf [n] fd ⟨rest, rfl⟩ (by simp))
    | none =>
      exact ih _ (pre ++ [n]) (fun r fd hr hr0 => by
        obtain ⟨s, hs⟩ := hr
        have h1 := hnf (n :: r) fd ⟨s, by simp [hs]⟩ (by simp)
        rw [getD_setD]
        by_cases he : pre ++ [n] = pre ++ [n] ++ r
        · rw [if_pos he]
          simp
        · rw [if_neg he]
          simpa using h1)

theorem mkdirs_wf : ∀ (todo : Path) (d : Dest) (pre : Path) (d' : Dest),
    DestWF d → (∀ r, r <+: pre → r ≠ [] → getD d r = some DEntry.dir) →
    mkdirs d pre todo = Except.ok d' → DestWF d' := by
  intro todo
  induction todo with
  | nil =>
    intro d pre d' hwf _ h
    simp [mkdirs] at h
    subst h
    exact hwf
  | cons n rest ih =>
    intro d pre d' hwf hpre h
    rw [mkdirs] at h
    cases hg : getD d (pre ++ [n]) with
    | some e =>
      cases e with
      | dir =>
        rw [hg] at h
        refine ih d (pre ++ [n]) d' hwf ?_ h
        intro r hr hr0
        rcases pfx_snoc_iff.mp hr with h1 | rfl
        · exact hpre r h1 hr0
        · exact hg
      | file fd =>
        rw [hg] at h
        simp at h
    | none =>
      rw [hg] at h
      have hwf1 : DestWF (setD d (pre ++ [n]) DEntry.dir) := by
        intro q r hq hr hrq hr0
        rw [getD_setD] at hq ⊢
        by_cases he : pre ++ [n] = r
        · rw [if_pos he]
        · rw [if_neg he]
          by_cases heq : pre ++ [n] = q
          · subst heq
            rcases pfx_snoc_iff.mp hr with h1 | rfl
            · have := hpre r h1 hr0
              exact this
            · exact absurd rfl hrq
          · rw [if_neg heq] at hq
            exact hwf q r hq hr hrq hr0
      refine ih _ (pre ++ [n]) d' hwf1 ?_ h
      intro r hr hr0
      rw [getD_setD]
      by_cases he : pre ++ [n] = r
      · rw [if_pos he]
      · rw [if_neg he]
        rcases pfx_snoc_iff.mp hr with h1 | rfl
        · exact hpre r h1 hr0
        · exact absurd rfl he

/-! ### Lemmas about the leaf copy operation -/

theorem ensureParent_frame {d d1 : Dest} {rel : Path}
    (h : ensureParent d rel = Except.ok d1) (q : Path) :
    getD d1 q = getD d q ∨
      (getD d q = none ∧ getD d1 q = some DEntry.dir ∧
        q <+: rel.dropLast ∧ q ≠ []) := by
  rw [ensureParent] at h
  by_cases hd : isdirD d rel.dropLast
  · rw [if_pos hd] at h
    simp at h
    subst h
    exact Or.inl rfl
  · rw [if_neg hd] at h
    rcases mkdirs_frame _ _ _ _ h q with h1 | ⟨h1, h2, r, hr, hr0, rfl⟩
    · exact Or.inl h1
    · exact Or.inr ⟨h1, h2, by simpa using hr, by simpa using hr0⟩

theorem ensureParent_dirs {d d1 : Dest} {rel : Path}
    (h : ensureParent d rel = Except.ok d1) (q : Path)
    (hq : getD d q = some DEntry.dir) : getD d1 q = some DEntry.dir := by
  rcases ensureParent_frame h q with h1 | ⟨h1, _, _⟩
  · rw [h1, hq]
  · rw [hq] at h1
    cases h1

theorem ensureParent_at (rel : Path) {d d1 : Dest}
    (h : ensureParent d rel = Except.ok d1) :
    getD d1 rel = getD d rel := by
  rcases ensureParent_frame h rel with h1 | ⟨_, _, hpfx, hne⟩
  · exact h1
  · exfalso
    have h1 := pfx_length_le hpfx
    have h2 : rel.dropLast.length = rel.length - 1 := by simp
    have h3 : rel ≠ [] := by
      rintro rfl
      exact hne rfl
    have h4 : 0 < rel.length := List.length_pos.mpr h3
    omega

theorem ensureParent_parent {d d1 : Dest} {rel : Path}
    (h : ensureParent d rel = Except.ok d1) :
    isdirD d1 rel.dropLast = true := by
  rw [ensureParent] at h
  by_cases hd : isdirD d rel.dropLast
  · rw [if_pos hd] at h
    simp at h
    subst h
    exact hd
  · rw [if_neg hd] at h
    by_cases hp : rel.dropLast = []
    · simp [isdirD, hp]
    · rw [isdirD_true_iff]
      refine Or.inr ?_
      simpa using mkdirs_makes _ _ _ _ h rel.dropLast ⟨[], by simp⟩ hp

theorem ensureParent_wf {d d1 : Dest} {rel : Path} (hwf : DestWF d)
    (h : ensureParent d rel = Except.ok d1) : DestWF d1 := by
  rw [ensureParent] at h
  by_cases hd : isdirD d rel.dropLast
  · rw [if_pos hd] at h
    simp at h
    subst h
    exact hwf
  · rw [if_neg hd] at h
    refine mkdirs_wf _ _ _ _ hwf ?_ h
    intro r hr hr0
    obtain ⟨s, hs⟩ := hr
    cases r with
    | nil => exact absurd rfl hr0
    | cons a l => simp at hs

theorem copy2_ok_spec {d : Dest} {rel : Path} {fd : FileData} {d' : Dest}
    (h : copy2 d rel fd = Except.ok d') :
    ∃ tgt, ((tgt = rel ∧ getD d rel ≠ some DEntry.dir) ∨
      (tgt = rel ++ [baseName rel] ∧ getD d rel = some DEntry.dir)) ∧
      getD d tgt ≠ some DEntry.dir ∧
      (∀ q, getD d' q = if tgt = q then some (DEntry.file fd) else getD d q) := by
  rw [copy2] at h
  by_cases hdir : getD d rel = some DEntry.dir
  · rw [if_pos hdir] at h
    refine ⟨rel ++ [baseName rel], Or.inr ⟨rfl, hdir⟩, ?_, ?_⟩
    · intro hc
      rw [hc] at h
      simp at h
    · cases hm : getD d (rel ++ [baseName rel]) with
      | none =>
        rw [hm] at h
        simp at h
        subst h
        intro q
        rw [getD_setD]
      | some e =>
        cases e with
        | dir =>
          rw [hm] at h
          simp at h
        | file fd2 =>
          rw [hm] at h
          simp at h
          subst h
          intro q
          rw [getD_setD]
  · rw [if_neg hdir] at h
    refine ⟨rel, Or.inl ⟨rfl, hdir⟩, hdir, ?_⟩
    cases hm : getD d rel with
    | none =>
      rw [hm] at h
      simp at h
      subst h
      intro q
      rw [getD_setD]
    | some e =>
      cases e with
      | dir => exact absurd hm hdir
      | file fd2 =>
        rw [hm] at h
        simp at h
        subst h
        intro q
        rw [getD_setD]

theorem copyLeaf_skip {gi : Path → Bool} {rel : Path} {fd : FileData}
    {d : Dest} (h : gi rel = true) : copyLeaf gi rel fd d = Except.ok d := by
  simp [copyLeaf, h]

theorem copyLeaf_ok_elim {gi : Path → Bool} {rel : Path} {fd : FileData}
    {d d' : Dest} (hgi : gi rel = false)
    (h : copyLeaf gi rel fd d = Except.ok d') :
    ∃ d1, ensureParent d rel = Except.ok d1 ∧ copy2 d1 rel fd = Except.ok d' := by
  rw [copyLeaf, if_neg (by simp [hgi])] at h
  cases he : ensureParent d rel with
  | error e =>
    rw [he] at h
    simp at h
  | ok d1 =>
    rw [he] at h
    exact ⟨d1, rfl, h⟩

theorem copyLeaf_frame {gi : Path → Bool} {rel : Path} {fd : FileData}
    {d d' : Dest} (h : copyLeaf gi rel fd d = Except.ok d') (q : Path) :
    getD d' q = getD d q ∨
      (gi rel = false ∧
        (((q = rel ∨ q = rel ++ [baseName rel]) ∧
            (getD d' q = some (DEntry.file fd) ∨ getD d' q = getD d q)) ∨
          (q <+: rel.dropLast ∧ q ≠ [] ∧ getD d q = none ∧
            getD d' q = some DEntry.dir))) := by
  cases hgi : gi rel with
  | true =>
    rw [copyLeaf_skip hgi] at h
    simp at h
    subst h
    exact Or.inl rfl
  | false =>
    obtain ⟨d1, he, hc⟩ := copyLeaf_ok_elim hgi h
    obtain ⟨tgt, htgt, hnotdir, hval⟩ := copy2_ok_spec hc
    by_cases hq : tgt = q
    · subst hq
      have hv : getD d' tgt = some (DEntry.file fd) := by
        rw [hval tgt, if_pos rfl]
      rcases htgt with ⟨heq, _⟩ | ⟨heq, _⟩
      · exact Or.inr ⟨rfl, Or.inl ⟨Or.inl heq, Or.inl hv⟩⟩
      · exact Or.inr ⟨rfl, Or.inl ⟨Or.inr heq, Or.inl hv⟩⟩
    · have h1 : getD d' q = getD d1 q := by rw [hval q, if_neg hq]
      rcases ensureParent_frame he q with h2 | ⟨h2, h3, h4, h5⟩
      · exact Or.inl (h1.trans h2)
      · exact Or.inr ⟨rfl, Or.inr ⟨h4, h5, h2, h1.trans h3⟩⟩

theorem copyLeaf_dirs {gi : Path → Bool} {rel : Path} {fd : FileData}
    {d d' : Dest} (h : copyLeaf gi rel fd d = Except.ok d') (q : Path)
    (hq : getD d q = some DEntry.dir) : getD d' q = some DEntry.dir := by
  cases hgi : gi rel with
  | true =>
    rw [copyLeaf_skip hgi] at h
    simp at h
    subst h
    exact hq
  | false =>
    obtain ⟨d1, he, hc⟩ := copyLeaf_ok_elim hgi h
    obtain ⟨tgt, htgt, hnotdir, hval⟩ := copy2_ok_spec hc
    have h1 : getD d1 q = some DEntry.dir := ensureParent_dirs he q hq
    by_cases hqt : tgt = q
    · subst hqt
      exact absurd h1 hnotdir
    · rw [hval q, if_neg hqt]
      exact h1

theorem copy2_anc_dirs {d1 : Dest} {rel tgt : Path} (hwf1 : DestWF d1)
    (hpar : isdirD d1 rel.dropLast = true)
    (htgt : (tgt = rel ∧ getD d1 rel ≠ some DEntry.dir) ∨
      (tgt = rel ++ [baseName rel] ∧ getD d1 rel = some DEntry.dir)) :
    ∀ r, r <+: tgt → r ≠ tgt → r ≠ [] → getD d1 r = some DEntry.dir := by
  intro r hr hrt hr0
  rcases htgt with ⟨heq, hnd⟩ | ⟨heq, hdir⟩
  · rw [heq] at hr hrt
    have h1 : r <+: rel.dropLast := pfx_dropLast_of_proper hr hrt
    rcases (isdirD_true_iff _ _).mp hpar with hnil | hdirp
    · obtain ⟨s, hs⟩ := h1
      rw [hnil] at hs
      simp at hs
      exact absurd hs.1 hr0
    · by_cases hre : r = rel.dropLast
      · rw [hre]
        exact hdirp
      · exact hwf1 rel.dropLast r (by rw [hdirp]; simp) h1 hre hr0
  · rw [heq] at hr hrt
    rcases pfx_snoc_iff.mp hr with h1 | hre
    · by_cases hre : r = rel
      · rw [hre]
        exact hdir
      · exact hwf1 rel r (by rw [hdir]; simp) h1 hre hr0
    · exact absurd hre hrt

theorem copyLeaf_wf {gi : Path → Bool} {rel : Path} {fd : FileData}
    {d d' : Dest} (hwf : DestWF d)
    (h : copyLeaf gi rel fd d = Except.ok d') : DestWF d' := by
  cases hgi : gi rel with
  | true =>
    rw [copyLeaf_skip hgi] at h
    simp at h
    subst h
    exact hwf
  | false =>
    obtain ⟨d1, he, hc⟩ := copyLeaf_ok_elim hgi h
    have hwf1 : DestWF d1 := ensureParent_wf hwf he
    have hpar : isdirD d1 rel.dropLast = true := ensureParent_parent he
    obtain ⟨tgt, htgt, hnotdir, hval⟩ := copy2_ok_spec hc
    have hanc := copy2_anc_dirs hwf1 hpar (by
      rcases htgt with ⟨h1, h2⟩ | ⟨h1, h2⟩
      · exact Or.inl ⟨h1, h2⟩
      · exact Or.inr ⟨h1, h2⟩)
    intro q r hq hr hrq hr0
    have hrt : r ≠ tgt := by
      intro hh
      by_cases hqt : tgt = q
      · exact hrq (hh.trans hqt)
      · rw [hval q, if_neg hqt] at hq
        exact hnotdir (hh ▸ hwf1 q r hq hr hrq hr0)
    rw [hval r, if_neg (fun hh => hrt hh.symm)]
    by_cases hqt : tgt = q
    · subst hqt
      exact hanc r hr hrq hr0
    · rw [hval q, if_neg hqt] at hq
      exact hwf1 q r hq hr hrq hr0

theorem copyLeaf_post {gi : Path → Bool} {rel : Path} {fd : FileData}
    {d d' : Dest} (hgi : gi rel = false) (hwf : DestWF d)
    (h : copyLeaf gi rel fd d = Except.ok d') :
    (∀ r, r <+: rel → r ≠ rel → r ≠ [] → getD d' r = some DEntry.dir) ∧
    (getD d rel ≠ some DEntry.dir → getD d' rel = some (DEntry.file fd)) ∧
    (getD d rel = some DEntry.dir →
      getD d' rel = some DEntry.dir ∧
      getD d' (rel ++ [baseName rel]) = some (DEntry.file fd)) := by
  obtain ⟨d1, he, hc⟩ := copyLeaf_ok_elim hgi h
  have hwf1 : DestWF d1 := ensureParent_wf hwf he
  have hpar : isdirD d1 rel.dropLast = true := ensureParent_parent he
  have hat : getD d1 rel = getD d rel := ensureParent_at rel he
  obtain ⟨tgt, htgt, hnotdir, hval⟩ := copy2_ok_spec hc
  refine ⟨?_, ?_, ?_⟩
  · intro r hr hrne hr0
    have h1 : r <+: rel.dropLast := pfx_dropLast_of_proper hr hrne
    have h2 : getD d1 r = some DEntry.dir := by
      rcases (isdirD_true_iff _ _).mp hpar with hnil | hdirp
      · obtain ⟨s, hs⟩ := h1
        rw [hnil] at hs
        simp at hs
        exact absurd hs.1 hr0
      · by_cases hre : r = rel.dropLast
        · rw [hre]
          exact hdirp
        · exact hwf1 rel.dropLast r (by rw [hdirp]; simp) h1 hre hr0
    have hrt : tgt ≠ r := by
      intro hh
      rcases htgt with ⟨heq, _⟩ | ⟨heq, _⟩
      · exact hrne (hh.symm.trans heq)
      · have h4 := pfx_length_le hr
        have h5 := congrArg List.length (hh.symm.trans heq)
        simp at h5
        omega
    rw [hval r, if_neg hrt]
    exact h2
  · intro hnd
    rcases htgt with ⟨heq, _⟩ | ⟨_, h2⟩
    · rw [← heq, hval tgt, if_pos rfl]
    · rw [hat] at h2
      exact absurd h2 hnd
  · intro hd
    rcases htgt with ⟨heq, h2⟩ | ⟨heq, h2⟩
    · rw [hat] at h2
      exact absurd hd h2
    · constructor
      · have hrt : tgt ≠ rel := by
          rw [heq]
          intro hh
          have := congrArg List.length hh
          simp at this
        rw [hval rel, if_neg hrt, hat, hd]
      · rw [← heq, hval tgt, if_pos rfl]

theorem snoc_inj {a b : Path} {x y : String} (h : a ++ [x] = b ++ [y]) :
    a = b ∧ x = y := by
  have h1 : a = b := by
    have := congrArg List.dropLast h
    simpa using this
  subst h1
  have h2 := List.append_cancel_left h
  simp at h2
  exact ⟨rfl, h2⟩

theorem copyLeaf_keep_file {gi : Path → Bool} {rel : Path} {fd : FileData}
    {d d' : Dest} (h : copyLeaf gi rel fd d = Except.ok d') {x : Path}
    {fdx : FileData} (hx : getD d x = some (DEntry.file fdx))
    (h1 : x ≠ rel) (h2 : x ≠ rel ++ [baseName rel]) :
    getD d' x = some (DEntry.file fdx) := by
  rcases copyLeaf_frame h x with hu | ⟨_, ⟨hsh, hv⟩ | ⟨_, _, hn, _⟩⟩
  · rw [hu, hx]
  · rcases hsh with rfl | rfl
    · exact absurd rfl h1
    · exact absurd rfl h2
  · rw [hx] at hn
    cases hn

theorem copyLeaf_cleanframe {gi : Path → Bool} {rel : Path} {fd : FileData}
    {d d' : Dest} (h : copyLeaf gi rel fd d = Except.ok d')
    (hclean : getD d rel ≠ some DEntry.dir) (q : Path) :
    getD d' q = getD d q ∨
      (gi rel = false ∧
        ((q = rel ∧ getD d' q = some (DEntry.file fd)) ∨
          (q <+: rel.dropLast ∧ q ≠ [] ∧ getD d q = none ∧
            getD d' q = some DEntry.dir))) := by
  cases hgi : gi rel with
  | true =>
    rw [copyLeaf_skip hgi] at h
    simp at h
    subst h
    exact Or.inl rfl
  | false =>
    obtain ⟨d1, he, hc⟩ := copyLeaf_ok_elim hgi h
    obtain ⟨tgt, htgt, hnotdir, hval⟩ := copy2_ok_spec hc
    have hat : getD d1 rel = getD d rel := ensureParent_at rel he
    have htr : tgt = rel := by
      rcases htgt with ⟨heq, _⟩ | ⟨_, hdir⟩
      · exact heq
      · rw [hat] at hdir
        exact absurd hdir hclean
    subst htr
    by_cases hq : tgt = q
    · subst hq
      refine Or.inr ⟨rfl, Or.inl ⟨rfl, ?_⟩⟩
      rw [hval tgt, if_pos rfl]
    · have h1 : getD d' q = getD d1 q := by rw [hval q, if_neg hq]
      rcases ensureParent_frame he q with h2 | ⟨h2, h3, h4, h5⟩
      · exact Or.inl (h1.trans h2)
      · exact Or.inr ⟨rfl, Or.inr ⟨h4, h5, h2, h1.trans h3⟩⟩

/-! ### Lemmas about processing the flat file list -/

theorem processFiles_append (gi : Path → Bool)
    (xs ys : List (Path × FileData)) : ∀ d : Dest,
    processFiles gi (xs ++ ys) d =
      match processFiles gi xs d with
      | Except.ok d1 => processFiles gi ys d1
      | Except.error e => Except.error e := by
  induction xs with
  | nil => intro d; simp [processFiles]
  | cons pf rest ih =>
    intro d
    rw [List.cons_append, processFiles, processFiles]
    cases hc : copyLeaf gi pf.1 pf.2 d with
    | ok d1 => exact ih d1
    | error e => rfl

theorem processFiles_skipAll (gi : Path → Bool)
    (files : List (Path × FileData))
    (h : ∀ pf, pf ∈ files → gi pf.1 = true) (d : Dest) :
    processFiles gi files d = Except.ok d := by
  induction files with
  | nil => rfl
  | cons pf rest ih =>
    rw [processFiles, copyLeaf_skip (h pf (by simp))]
    exact ih (fun pf' h' => h pf' (by simp [h']))

theorem processFiles_dirs (gi : Path → Bool)
    (files : List (Path × FileData)) : ∀ d d' : Dest,
    processFiles gi files d = Except.ok d' →
    ∀ q, getD d q = some DEntry.dir → getD d' q = some DEntry.dir := by
  induction files with
  | nil =>
    intro d d' h q hq
    simp [processFiles] at h
    subst h
    exact hq
  | cons pf rest ih =>
    intro d d' h q hq
    rw [processFiles] at h
    cases hc : copyLeaf gi pf.1 pf.2 d with
    | ok d1 =>
      rw [hc] at h
      exact ih d1 d' h q (copyLeaf_dirs hc q hq)
    | error e =>
      rw [hc] at h
      cases h

theorem processFiles_keep_file (gi : Path → Bool)
    (files : List (Path × FileData)) : ∀ d d' : Dest,
    processFiles gi files d = Except.ok d' →
    ∀ x fdx, getD d x = some (DEntry.file fdx) →
    (∀ p fd, (p, fd) ∈ files → x ≠ p ∧ x ≠ p ++ [baseName p]) →
    getD d' x = some (DEntry.file fdx) := by
  induction files with
  | nil =>
    intro d d' h x fdx hx _
    simp [processFiles] at h
    subst h
    exact hx
  | cons pf rest ih =>
    intro d d' h x fdx hx hsep
    rw [processFiles] at h
    cases hc : copyLeaf gi pf.1 pf.2 d with
    | ok d1 =>
      rw [hc] at h
      have hx1 := copyLeaf_keep_file hc hx
        (hsep pf.1 pf.2 (by simp)).1 (hsep pf.1 pf.2 (by simp)).2
      exact ih d1 d' h x fdx hx1
        (fun p fd hmem => hsep p fd (by simp [hmem]))
    | error e =>
      rw [hc] at h
      cases h

theorem processFiles_frame (gi : Path → Bool)
    (files : List (Path × FileData)) : ∀ d d' : Dest,
    processFiles gi files d = Except.ok d' → ∀ q,
    getD d' q = getD d q ∨
      ∃ p fd, (p, fd) ∈ files ∧ gi p = false ∧
        ((q = p ∨ q = p ++ [baseName p]) ∨
          (q <+: p.dropLast ∧ q ≠ [] ∧ getD d q = none ∧
            getD d' q = some DEntry.dir)) := by
  induction files with
  | nil =>
    intro d d' h q
    simp [processFiles] at h
    subst h
    exact Or.inl rfl
  | cons pf rest ih =>
    intro d d' h q
    rw [processFiles] at h
    cases hc : copyLeaf gi pf.1 pf.2 d with
    | error e =>
      rw [hc] at h
      cases h
    | ok d1 =>
      rw [hc] at h
      rcases ih d1 d' h q with h1 | ⟨p, fd, hmem, hgi, hsh⟩
      · rcases copyLeaf_frame hc q with h2 | ⟨hgi0, ⟨hsh0, _⟩ | ⟨ha, hb, hn, hd1⟩⟩
        · exact Or.inl (h1.trans h2)
        · exact Or.inr ⟨pf.1, pf.2, by simp, hgi0, Or.inl hsh0⟩
        · exact Or.inr ⟨pf.1, pf.2, by simp, hgi0,
            Or.inr ⟨ha, hb, hn, h1.trans hd1⟩⟩
      · rcases hsh with hsh0 | ⟨ha, hb, hn1, hd'⟩
        · exact Or.inr ⟨p, fd, by simp [hmem], hgi, Or.inl hsh0⟩
        · rcases copyLeaf_frame hc q with h2 | ⟨hgi0, ⟨_, hv⟩ | ⟨_, _, hn0, hdd⟩⟩
          · exact Or.inr ⟨p, fd, by simp [hmem], hgi,
              Or.inr ⟨ha, hb, h2 ▸ hn1, hd'⟩⟩
          · rcases hv with hv | hv
            · rw [hn1] at hv
              cases hv
            · exact Or.inr ⟨p, fd, by simp [hmem], hgi,
                Or.inr ⟨ha, hb, hv ▸ hn1, hd'⟩⟩
          · rw [hn1] at hdd
            cases hdd

theorem pfx_refl (p : Path) : p <+: p := ⟨[], by simp⟩

theorem pfx_snoc_self (p : Path) (a : String) : p <+: p ++ [a] := ⟨[a], rfl⟩

theorem processFiles_main (gi : Path → Bool)
    (files : List (Path × FileData)) : ∀ d d' : Dest,
    IncompList files → DestWF d →
    processFiles gi files d = Except.ok d' →
    DestWF d' ∧
    ∀ p fd, (p, fd) ∈ files → gi p = false →
      (∀ r, r <+: p → r ≠ p → r ≠ [] → getD d' r = some DEntry.dir) ∧
      (getD d p ≠ some DEntry.dir → getD d' p = some (DEntry.file fd)) ∧
      (getD d p = some DEntry.dir →
        getD d' p = some DEntry.dir ∧
        getD d' (p ++ [baseName p]) = some (DEntry.file fd)) := by
  induction files with
  | nil =>
    intro d d' _ hwf h
    simp [processFiles] at h
    subst h
    exact ⟨hwf, by simp⟩
  | cons pf rest ih =>
    obtain ⟨p0, fd0⟩ := pf
    intro d d' hinc hwf h
    obtain ⟨hhead, hrest⟩ := List.pairwise_cons.mp hinc
    rw [processFiles] at h
    cases hc : copyLeaf gi p0 fd0 d with
    | error e =>
      rw [hc] at h
      cases h
    | ok d1 =>
      rw [hc] at h
      have hwf1 : DestWF d1 := copyLeaf_wf hwf hc
      obtain ⟨hwf', hpost'⟩ := ih d1 d' hrest hwf1 h
      refine ⟨hwf', ?_⟩
      intro p fd hmem hgip
      rcases List.mem_cons.mp hmem with heq | hmem'
      · obtain ⟨hp, hf⟩ := Prod.mk.injEq .. ▸ heq
        subst hp
        subst hf
        obtain ⟨c1, c2, c3⟩ := copyLeaf_post hgip hwf hc
        refine ⟨?_, ?_, ?_⟩
        · intro r hr hrne hr0
          exact processFiles_dirs gi rest d1 d' h r (c1 r hr hrne hr0)
        · intro hnd
          refine processFiles_keep_file gi rest d1 d' h p fd (c2 hnd) ?_
          intro p' fd' hmem'
          obtain ⟨hA, hB⟩ := hhead (p', fd') hmem'
          constructor
          · intro he
            exact hA (he ▸ pfx_refl p)
          · intro he
            exact hB (he ▸ pfx_snoc_self p' (baseName p'))
        · intro hd
          obtain ⟨cd, cf⟩ := c3 hd
          refine ⟨processFiles_dirs gi rest d1 d' h p cd, ?_⟩
          refine processFiles_keep_file gi rest d1 d' h _ fd cf ?_
          intro p' fd' hmem'
          obtain ⟨hA, hB⟩ := hhead (p', fd') hmem'
          constructor
          · intro he
            exact hA (he ▸ pfx_snoc_self p (baseName p))
          · intro he
            exact hA ((snoc_inj he).1 ▸ pfx_refl p)
      · obtain ⟨hA, hB⟩ := hhead (p, fd) hmem'
        have hunch : getD d1 p = getD d p := by
          rcases copyLeaf_frame hc p with h1 | ⟨_, ⟨hsh, _⟩ | ⟨ha, _, _, _⟩⟩
          · exact h1
          · rcases hsh with rfl | rfl
            · exact absurd (pfx_refl p) hB
            · exact absurd (pfx_snoc_self p0 (baseName p0)) hA
          · exact absurd (pfx_trans ha (dropLast_pfx p0)) hB
        obtain ⟨c1, c2, c3⟩ := hpost' p fd hmem' hgip
        refine ⟨c1, ?_, ?_⟩
        · intro hnd
          exact c2 (by rw [hunch]; exact hnd)
        · intro hd
          exact c3 (hunch.trans hd)

theorem processFiles_cleanframe (gi : Path → Bool)
    (files : List (Path × FileData)) : ∀ d d' : Dest,
    IncompList files →
    (∀ p fd, (p, fd) ∈ files → gi p = false →
      getD d p ≠ some DEntry.dir) →
    processFiles gi files d = Except.ok d' → ∀ q,
    getD d' q = getD d q ∨
      ∃ p fd, (p, fd) ∈ files ∧ gi p = false ∧
        (q = p ∨ (q <+: p.dropLast ∧ q ≠ [] ∧ getD d q = none ∧
          getD d' q = some DEntry.dir)) := by
  induction files with
  | nil =>
    intro d d' _ _ h q
    simp [processFiles] at h
    subst h
    exact Or.inl rfl
  | cons pf rest ih =>
    obtain ⟨p0, fd0⟩ := pf
    intro d d' hinc hnd h q
    obtain ⟨hhead, hrest⟩ := List.pairwise_cons.mp hinc
    rw [processFiles] at h
    cases hc : copyLeaf gi p0 fd0 d with
    | error e =>
      rw [hc] at h
      cases h
    | ok d1 =>
      rw [hc] at h
      by_cases hgi0 : gi p0 = true
      · have hskip : d1 = d := by
          rw [copyLeaf_skip hgi0] at hc
          simpa using hc.symm
        subst hskip
        rcases ih d1 d' hrest
          (fun p fd hm hg => hnd p fd (by simp [hm]) hg) h q with
          h1 | ⟨p, fd, hmem, hgip, hsh⟩
        · exact Or.inl h1
        · exact Or.inr ⟨p, fd, by simp [hmem], hgip, hsh⟩
      · have hgi0' : gi p0 = false := by
          cases hh : gi p0 with
          | true => exact absurd hh hgi0
          | false => rfl
        have hcl0 : getD d p0 ≠ some DEntry.dir :=
          hnd p0 fd0 (by simp) hgi0'
        have hnd1 : ∀ p fd, (p, fd) ∈ rest → gi p = false →
            getD d1 p ≠ some DEntry.dir := by
          intro p fd hm hg
          obtain ⟨hA, hB⟩ := hhead (p, fd) hm
          rcases copyLeaf_cleanframe hc hcl0 p with
            h1 | ⟨_, ⟨heq, _⟩ | ⟨ha, _, _, _⟩⟩
          · rw [h1]
            exact hnd p fd (by simp [hm]) hg
          · exact absurd (heq ▸ pfx_refl p) hB
          · exact absurd (pfx_trans ha (dropLast_pfx p0)) hB
        rcases ih d1 d' hrest hnd1 h q with h1 | ⟨p, fd, hmem, hgip, hsh⟩
        · rcases copyLeaf_cleanframe hc hcl0 q with
            h2 | ⟨_, ⟨heq, hv⟩ | ⟨ha, hb, hn, hdir⟩⟩
          · exact Or.inl (h1.trans h2)
          · exact Or.inr ⟨p0, fd0, by simp, hgi0', Or.inl heq⟩
          · exact Or.inr ⟨p0, fd0, by simp, hgi0',
              Or.inr ⟨ha, hb, hn, h1.trans hdir⟩⟩
        · rcases hsh with heq | ⟨ha, hb, hn1, hd'⟩
          · exact Or.inr ⟨p, fd, by simp [hmem], hgip, Or.inl heq⟩
          · rcases copyLeaf_cleanframe hc hcl0 q with
              h2 | ⟨_, ⟨_, hv⟩ | ⟨_, _, _, hdir⟩⟩
            · exact Or.inr ⟨p, fd, by simp [hmem], hgip,
                Or.inr ⟨ha, hb, h2 ▸ hn1, hd'⟩⟩
            · rw [hn1] at hv
              cases hv
            · rw [hn1] at hdir
              cases hdir

theorem copyLeaf_noop {gi : Path → Bool} {rel : Path} {fd : FileData}
    {dRef d : Dest} (hgi : gi rel = false)
    (hpar : isdirD dRef rel.dropLast = true)
    (hcop : getD dRef rel = some (DEntry.file fd) ∨
      (getD dRef rel = some DEntry.dir ∧
        getD dRef (rel ++ [baseName rel]) = some (DEntry.file fd)))
    (hsame : ∀ q, getD d q = getD dRef q) :
    ∃ d2, copyLeaf gi rel fd d = Except.ok d2 ∧
      ∀ q, getD d2 q = getD dRef q := by
  have hens : ensureParent d rel = Except.ok d := by
    rw [ensureParent, if_pos]
    rw [isdirD_congr hsame]
    exact hpar
  rcases hcop with hfile | ⟨hdir, hfile2⟩
  · have hd0 : getD d rel = some (DEntry.file fd) := (hsame rel).trans hfile
    refine ⟨setD d rel (DEntry.file fd), ?_, ?_⟩
    · have hc2 : copy2 d rel fd =
          Except.ok (setD d rel (DEntry.file fd)) := by
        simp [copy2, hd0]
      rw [copyLeaf, if_neg (by simp [hgi]), hens]
      exact hc2
    · intro q
      rw [getD_setD]
      by_cases hq : rel = q
      · subst hq
        rw [if_pos rfl]
        exact hfile.symm
      · rw [if_neg hq]
        exact hsame q
  · have hd0 : getD d rel = some DEntry.dir := (hsame rel).trans hdir
    have hb0 : getD d (rel ++ [baseName rel]) = some (DEntry.file fd) :=
      (hsame _).trans hfile2
    refine ⟨setD d (rel ++ [baseName rel]) (DEntry.file fd), ?_, ?_⟩
    · have hc2 : copy2 d rel fd =
          Except.ok (setD d (rel ++ [baseName rel]) (DEntry.file fd)) := by
        simp [copy2, hd0, hb0]
      rw [copyLeaf, if_neg (by simp [hgi]), hens]
      exact hc2
    · intro q
      rw [getD_setD]
      by_cases hq : rel ++ [baseName rel] = q
      · subst hq
        rw [if_pos rfl]
        exact hfile2.symm
      · rw [if_neg hq]
        exact hsame q

theorem processFiles_noop (gi : Path → Bool)
    (files : List (Path × FileData)) : ∀ dRef d : Dest,
    (∀ p fd, (p, fd) ∈ files → gi p = false →
      isdirD dRef p.dropLast = true ∧
      (getD dRef p = some (DEntry.file fd) ∨
        (getD dRef p = some DEntry.dir ∧
          getD dRef (p ++ [baseName p]) = some (DEntry.file fd)))) →
    (∀ q, getD d q = getD dRef q) →
    ∃ d', processFiles gi files d = Except.ok d' ∧
      ∀ q, getD d' q = getD dRef q := by
  induction files with
  | nil =>
    intro dRef d _ hsame
    exact ⟨d, rfl, hsame⟩
  | cons pf rest ih =>
    obtain ⟨p0, fd0⟩ := pf
    intro dRef d hinv hsame
    cases hgi0 : gi p0 with
    | true =>
      obtain ⟨d', hrun, hsame'⟩ := ih dRef d
        (fun p fd hm hg => hinv p fd (by simp [hm]) hg) hsame
      refine ⟨d', ?_, hsame'⟩
      rw [processFiles, copyLeaf_skip hgi0]
      exact hrun
    | false =>
      obtain ⟨hpar, hcop⟩ := hinv p0 fd0 (by simp) hgi0
      obtain ⟨d2, hstep, hsame2⟩ := copyLeaf_noop hgi0 hpar hcop hsame
      obtain ⟨d', hrun, hsame'⟩ := ih dRef d2
        (fun p fd hm hg => hinv p fd (by simp [hm]) hg) hsame2
      refine ⟨d', ?_, hsame'⟩
      rw [processFiles, hstep]
      exact hrun

/-! ### The tree walk flattened to the file list -/

mutual

theorem copyTree_eq_processFiles (gi : Path → Bool) :
    ∀ (t : FSTree) (rel : Path) (d : Dest),
    copyTree gi t rel d = processFiles gi (filesOf t rel) d
  | FSTree.file fd, rel, d => by
    show copyLeaf gi rel fd d = processFiles gi [(rel, fd)] d
    cases hc : copyLeaf gi rel fd d with
    | ok d1 =>
      show _ = processFiles gi ((rel, fd) :: []) d
      rw [processFiles, hc]
      rfl
    | error e =>
      show _ = processFiles gi ((rel, fd) :: []) d
      rw [processFiles, hc]
  | FSTree.dir cs, rel, d => by
    show copyChildren gi cs rel d = processFiles gi (filesOfList cs rel) d
    exact copyChildren_eq_processFiles gi cs rel d

theorem copyChildren_eq_processFiles (gi : Path → Bool) :
    ∀ (cs : List (String × FSTree)) (rel : Path) (d : Dest),
    copyChildren gi cs rel d = processFiles gi (filesOfList cs rel) d
  | [], rel, d => rfl
  | (n, t) :: rest, rel, d => by
    rw [copyChildren, filesOfList, processFiles_append,
      ← copyTree_eq_processFiles gi t (rel ++ [n]) d]
    cases hc : copyTree gi t (rel ++ [n]) d with
    | ok d1 => exact copyChildren_eq_processFiles gi rest rel d1
    | error e => rfl

end

mutual

theorem filesOf_pfx : ∀ (t : FSTree) (rel p : Path) (fd : FileData),
    (p, fd) ∈ filesOf t rel → rel <+: p
  | FSTree.file fd0, rel, p, fd => by
    intro h
    rw [filesOf] at h
    simp at h
    exact h.1 ▸ pfx_refl rel
  | FSTree.dir cs, rel, p, fd => by
    intro h
    rw [filesOf] at h
    obtain ⟨c, _, hpfx⟩ := filesOfList_pfx cs rel p fd h
    exact pfx_trans (pfx_snoc_self rel c.1) hpfx

theorem filesOfList_pfx : ∀ (cs : List (String × FSTree)) (rel p : Path)
    (fd : FileData), (p, fd) ∈ filesOfList cs rel →
    ∃ c, c ∈ cs ∧ (rel ++ [c.1]) <+: p
  | [], rel, p, fd => by
    intro h
    rw [filesOfList] at h
    simp at h
  | (n, t) :: rest, rel, p, fd => by
    intro h
    rw [filesOfList] at h
    rcases List.mem_append.mp h with h1 | h2
    · exact ⟨(n, t), by simp, filesOf_pfx t (rel ++ [n]) p fd h1⟩
    · obtain ⟨c, hc, hp⟩ := filesOfList_pfx rest rel p fd h2
      exact ⟨c, by simp [hc], hp⟩

end

theorem namesNodup_cons {n : String} {t : FSTree}
    {rest : List (String × FSTree)}
    (h : namesNodup ((n, t) :: rest) = true) :
    (∀ c, c ∈ rest → c.1 ≠ n) ∧ namesNodup rest = true := by
  rw [namesNodup] at h
  simp at h
  exact ⟨fun c hc => h.1 c.1 c.2 hc, h.2⟩

mutual

theorem wf_incomp : ∀ (t : FSTree) (rel : Path),
    wf t = true → IncompList (filesOf t rel)
  | FSTree.file fd, rel => by
    intro _
    rw [filesOf]
    exact List.pairwise_singleton _ _
  | FSTree.dir cs, rel => by
    intro h
    rw [wf] at h
    simp at h
    rw [filesOf]
    exact wfList_incomp cs rel h.1 h.2

theorem wfList_incomp : ∀ (cs : List (String × FSTree)) (rel : Path),
    namesNodup cs = true → wfList cs = true →
    IncompList (filesOfList cs rel)
  | [], rel => by
    intro _ _
    rw [filesOfList]
    exact List.Pairwise.nil
  | (n, t) :: rest, rel => by
    intro hnd hwfl
    obtain ⟨hsep, hnd'⟩ := namesNodup_cons hnd
    have hwfl' : wf t = true ∧ wfList rest = true := by
      rw [wfList] at hwfl
      simpa using hwfl
    rw [filesOfList, IncompList, List.pairwise_append]
    refine ⟨wf_incomp t (rel ++ [n]) hwfl'.1,
      wfList_incomp rest rel hnd' hwfl'.2, ?_⟩
    intro a ha b hb
    have hpa : rel ++ [n] <+: a.1 :=
      filesOf_pfx t (rel ++ [n]) a.1 a.2 (by simpa using ha)
    obtain ⟨c, hcmem, hpb⟩ :=
      filesOfList_pfx rest rel b.1 b.2 (by simpa using hb)
    have hne : n ≠ c.1 := fun he => (hsep c hcmem) he.symm
    constructor
    · intro hab
      exact hne (pfx_two_snoc (pfx_trans hpa hab) hpb)
    · intro hba
      exact hne (pfx_two_snoc hpa (pfx_trans hpb hba))

end

/-! ### Lookup lemmas -/

theorem wfList_mem_wf : ∀ (cs : List (String × FSTree)),
    wfList cs = true → ∀ c, c ∈ cs → wf c.2 = true := by
  intro cs
  induction cs with
  | nil => intro _ c hc; simp at hc
  | cons c0 rest ih =>
    intro h c hc
    rw [wfList] at h
    simp at h
    rcases List.mem_cons.mp hc with rfl | hc'
    · exact h.1
    · exact ih h.2 c hc'

theorem find?_nodup : ∀ (cs : List (String × FSTree)) (nm : String)
    (t : FSTree), namesNodup cs = true → (nm, t) ∈ cs →
    cs.find? (fun c => c.1 == nm) = some (nm, t) := by
  intro cs
  induction cs with
  | nil => intro nm t _ h; simp at h
  | cons c0 rest ih =>
    intro nm t hnd hmem
    obtain ⟨n0, t0⟩ := c0
    obtain ⟨hsep, hnd'⟩ := namesNodup_cons hnd
    rcases List.mem_cons.mp hmem with heq | hmem'
    · obtain ⟨h1, h2⟩ := Prod.mk.injEq .. ▸ heq
      subst h1
      subst h2
      exact List.find?_cons_of_pos _ (by simp)
    · have hne : nm ≠ n0 := hsep (nm, t) hmem'
      rw [List.find?_cons_of_neg _ (by simp; exact fun he => hne he.symm)]
      exact ih nm t hnd' hmem'

theorem lookupPath_nil (t : FSTree) : lookupPath t [] = some t := by
  cases t <;> rfl

theorem lookupPath_file_cons (fd : FileData) (n : String) (l : Path) :
    lookupPath (FSTree.file fd) (n :: l) = none := rfl

theorem lookupPath_dir_cons (cs : List (String × FSTree)) (n : String)
    (l : Path) :
    lookupPath (FSTree.dir cs) (n :: l) =
      match cs.find? (fun c => c.1 == n) with
      | some c => lookupPath c.2 l
      | none => none := rfl

theorem lookup_append : ∀ (l1 : Path) (t : FSTree) (l2 : Path),
    lookupPath t (l1 ++ l2) =
      match lookupPath t l1 with
      | some t' => lookupPath t' l2
      | none => none := by
  intro l1
  induction l1 with
  | nil => intro t l2; cases t <;> rfl
  | cons n rest ih =>
    intro t l2
    cases t with
    | file fd => rfl
    | dir cs =>
      rw [List.cons_append, lookupPath_dir_cons, lookupPath_dir_cons]
      cases hf : cs.find? (fun c => c.1 == n) with
      | some c => exact ih c.2 l2
      | none => rfl

theorem lookup_child {src : FSTree} {rel : Path}
    {cs : List (String × FSTree)} {nm : String} {t : FSTree}
    (h : lookupPath src rel = some (FSTree.dir cs))
    (hnd : namesNodup cs = true) (hmem : (nm, t) ∈ cs) :
    lookupPath src (rel ++ [nm]) = some t := by
  rw [lookup_append, h]
  show lookupPath (FSTree.dir cs) [nm] = some t
  rw [lookupPath_dir_cons, find?_nodup cs nm t hnd hmem]
  show lookupPath t [] = some t
  exact lookupPath_nil t

theorem wf_lookup : ∀ (rel : Path) (src t : FSTree), wf src = true →
    lookupPath src rel = some t → wf t = true := by
  intro rel
  induction rel with
  | nil =>
    intro src t hwf h
    rw [lookupPath_nil] at h
    simp at h
    rw [← h]
    exact hwf
  | cons n rest ih =>
    intro src t hwf h
    cases src with
    | file fd => rw [lookupPath_file_cons] at h; cases h
    | dir cs =>
      rw [lookupPath_dir_cons] at h
      cases hf : cs.find? (fun c => c.1 == n) with
      | none => rw [hf] at h; cases h
      | some c =>
        rw [hf] at h
        have hc : c ∈ cs := List.mem_of_find?_eq_some hf
        have hwfc : wf c.2 = true := by
          rw [wf] at hwf
          simp at hwf
          exact wfList_mem_wf cs hwf.2 c hc
        exact ih c.2 t hwfc h

/-! ### Bridge from the decidable wellformedness check -/

theorem getD_ne_none_mem : ∀ (d : Dest) (q : Path), getD d q ≠ none →
    ∃ e, e ∈ d ∧ e.1 = q := by
  intro d
  induction d with
  | nil => intro q h; simp [getD] at h
  | cons e rest ih =>
    intro q h
    rw [getD] at h
    by_cases he : e.1 = q
    · exact ⟨e, by simp, he⟩
    · rw [if_neg he] at h
      obtain ⟨e', hmem, he'⟩ := ih q h
      exact ⟨e', by simp [hmem], he'⟩

theorem take_of_pfx {r p : Path} (h : r <+: p) : p.take r.length = r := by
  obtain ⟨t, rfl⟩ := h
  simp

theorem mem_properAncestors {p r : Path} (hr : r <+: p) (hrp : r ≠ p)
    (hr0 : r ≠ []) : r ∈ properAncestors p := by
  rw [properAncestors]
  have h1 : r.length ≤ p.length := pfx_length_le hr
  have h2 : r.length ≠ p.length := by
    intro he
    exact hrp (pfx_eq_of_length hr (Nat.le_of_eq he.symm))
  have h3 : 0 < r.length := List.length_pos.mpr hr0
  refine List.mem_map.mpr ⟨r.length - 1, ?_, ?_⟩
  · rw [List.mem_range]
    omega
  · rw [show r.length - 1 + 1 = r.length by omega]
    exact take_of_pfx hr

theorem destWFb_DestWF {d : Dest} (h : destWFb d = true) : DestWF d := by
  intro q r hq hr hrq hr0
  obtain ⟨e, hmem, he⟩ := getD_ne_none_mem d q hq
  rw [destWFb, List.all_eq_true] at h
  have h2 := h e hmem
  rw [List.all_eq_true] at h2
  have h3 := h2 r (by rw [he]; exact mem_properAncestors hr hrq hr0)
  simpa using h3

/-! ### Unfolding lemmas for the top-level copier -/

theorem copyNotGitignoreTree_some {src : FSTree} {gi : Path → Bool}
    {rel : Path} {d : Dest} {t : FSTree}
    (h : lookupPath src rel = some t) :
    copyNotGitignoreTree src gi rel d = copyTree gi t rel d := by
  rw [copyNotGitignoreTree, h]

theorem copyNotGitignoreTree_none {src : FSTree} {gi : Path → Bool}
    {rel : Path} {d : Dest} (h : lookupPath src rel = none) :
    copyNotGitignoreTree src gi rel d =
      (if gi rel then Except.ok d
       else
         match ensureParent d rel with
         | Except.error e => Except.error e
         | Except.ok _ => Except.error (CopyErr.notFound rel)) := by
  rw [copyNotGitignoreTree, h]

/-! ### The fuel-indexed copier agrees with the total one -/

theorem depthList_le : ∀ (cs : List (String × FSTree)) (c : String × FSTree),
    c ∈ cs → depth c.2 ≤ depthList cs := by
  intro cs
  induction cs with
  | nil => intro c hc; simp at hc
  | cons c0 rest ih =>
    intro c hc
    rw [depthList]
    rcases List.mem_cons.mp hc with rfl | hc'
    · exact Nat.le_max_left _ _
    · exact Nat.le_trans (ih c hc') (Nat.le_max_right _ _)

theorem copyFuelList_eq (src : FSTree) (gi : Path → Bool) (n : Nat)
    (ihn : ∀ (rel : Path) (d : Dest), reachDepth src rel < n →
      copyFuel src gi n rel d = copyNotGitignoreTree src gi rel d) :
    ∀ (cs : List (String × FSTree)) (rel : Path) (d : Dest),
    (∀ c, c ∈ cs → lookupPath src (rel ++ [c.1]) = some c.2 ∧
      depth c.2 < n) →
    copyFuelList src gi n cs rel d = copyChildren gi cs rel d := by
  intro cs
  induction cs with
  | nil =>
    intro rel d _
    rw [copyFuelList, copyChildren]
  | cons c rest ihc =>
    obtain ⟨nm, t⟩ := c
    intro rel d hch
    obtain ⟨hlk, hdep⟩ := hch (nm, t) (by simp)
    have h2 : copyFuel src gi n (rel ++ [nm]) d =
        copyNotGitignoreTree src gi (rel ++ [nm]) d :=
      ihn _ d (by rw [reachDepth, hlk]; exact hdep)
    rw [copyFuelList, copyChildren, h2, copyNotGitignoreTree_some hlk]
    cases hc : copyTree gi t (rel ++ [nm]) d with
    | ok d1 => exact ihc rel d1 (fun c hc' => hch c (by simp [hc']))
    | error e => rfl

theorem copyFuel_eq (src : FSTree) (gi : Path → Bool)
    (hwf : wf src = true) : ∀ (n : Nat) (rel : Path) (d : Dest),
    reachDepth src rel < n →
    copyFuel src gi n rel d = copyNotGitignoreTree src gi rel d := by
  intro n
  induction n with
  | zero => intro rel d h; exact absurd h (Nat.not_lt_zero _)
  | succ n ih =>
    intro rel d hlt
    rw [copyFuel]
    cases hl : lookupPath src rel with
    | none => rw [copyNotGitignoreTree_none hl]
    | some t =>
      rw [copyNotGitignoreTree_some hl]
      cases t with
      | file fd => rfl
      | dir cs =>
        show copyFuelList src gi n cs rel d = copyChildren gi cs rel d
        have hwfd : wf (FSTree.dir cs) = true := wf_lookup rel src _ hwf hl
        have hnd : namesNodup cs = true := by
          rw [wf] at hwfd
          simp at hwfd
          exact hwfd.1
        have hdeps : depthList cs < n := by
          simp only [reachDepth, hl] at hlt
          rw [show depth (FSTree.dir cs) = depthList cs + 1 from by
            rw [depth.eq_def]] at hlt
          omega
        refine copyFuelList_eq src gi n ih cs rel d ?_
        intro c hc
        refine ⟨?_, ?_⟩
        · obtain ⟨nm, t'⟩ := c
          exact lookup_child hl hnd hc
        · exact Nat.lt_of_le_of_lt (depthList_le cs c hc) hdeps

/-! ### Further shared lemmas for the claims -/

theorem pathsIncomp_symm : ∀ a b : Path × FileData,
    PathsIncomp a b → PathsIncomp b a := fun _ _ h => ⟨h.2, h.1⟩

theorem copyLeaf_congr {gi gi' : Path → Bool} {rel : Path} {fd : FileData}
    (h : gi rel = gi' rel) (d : Dest) :
    copyLeaf gi rel fd d = copyLeaf gi' rel fd d := by
  rw [copyLeaf, copyLeaf, h]

theorem processFiles_congr {gi gi' : Path → Bool}
    (files : List (Path × FileData)) : ∀ d : Dest,
    (∀ pf, pf ∈ files → gi pf.1 = gi' pf.1) →
    processFiles gi files d = processFiles gi' files d := by
  induction files with
  | nil => intro d _; rfl
  | cons pf rest ih =>
    intro d hagree
    rw [processFiles, processFiles,
      copyLeaf_congr (hagree pf (by simp)) d]
    cases hc : copyLeaf gi' pf.1 pf.2 d with
    | ok d1 => exact ih d1 (fun pf' hm => hagree pf' (by simp [hm]))
    | error e => rfl

/-! ### The claims -/

/-- C1 (counterexample): the claim fails as stated.  With the source file
`f` (so its mirrored relative path is `["f"]`, not excluded) and a
destination that already contains a directory at that mirrored path, the
run completes successfully, yet the mirrored path still holds a directory
rather than a copy of the file: following `shutil.copy2`, the file content
was placed inside the directory, at `["f", "f"]`. -/
theorem c1_counterexample :
    copyNotGitignoreTree
        (FSTree.dir [("f", FSTree.file (FileData.mk [7] 1 2))])
        (fun _ => false) ["f"] [(["f"], DEntry.dir)] =
      Except.ok [((["f", "f"] : Path), DEntry.file (FileData.mk [7] 1 2)),
        ((["f"] : Path), DEntry.dir)] ∧
    (["f"], FileData.mk [7] 1 2) ∈
      filesOf (FSTree.file (FileData.mk [7] 1 2)) ["f"] ∧
    getD [((["f", "f"] : Path), DEntry.file (FileData.mk [7] 1 2)),
        ((["f"] : Path), DEntry.dir)] ["f"] ≠
      some (DEntry.file (FileData.mk [7] 1 2)) :=
  ⟨rfl, by decide, by decide⟩

/-- C1 (amended): for every file reachable from `relativeEntry` whose
mirrored relative path is not excluded, provided the destination did not
already hold a directory at that mirrored path, after a successful run the
destination holds the file at the mirrored path with identical content and
metadata (the whole `FileData`, including modification time and permission
bits), and every proper nonempty ancestor of the path is a directory (all
missing intermediate parent directories were created). -/
theorem c1_copy_correct (src t : FSTree) (gi : Path → Bool) (rel : Path)
    (d0 d : Dest) (p : Path) (fd : FileData)
    (hl : lookupPath src rel = some t) (hwf : wf t = true)
    (hdwf : destWFb d0 = true)
    (hrun : copyNotGitignoreTree src gi rel d0 = Except.ok d)
    (hmem : (p, fd) ∈ filesOf t rel) (hgi : gi p = false)
    (hnd : getD d0 p ≠ some DEntry.dir) :
    getD d p = some (DEntry.file fd) ∧
    ∀ r, r <+: p → r ≠ p → r ≠ [] → getD d r = some DEntry.dir := by
  rw [copyNotGitignoreTree_some hl, copyTree_eq_processFiles] at hrun
  obtain ⟨_, hpost⟩ := processFiles_main gi (filesOf t rel) d0 d
    (wf_incomp t rel hwf) (destWFb_DestWF hdwf) hrun
  obtain ⟨c1, c2, _⟩ := hpost p fd hmem hgi
  exact ⟨c2 hnd, c1⟩

/-- C2 (confirmed): a file whose mirrored relative path satisfies the
exclusion predicate is skipped: if nothing was at its mirrored path in the
destination before the run, nothing is there after a successful run. -/
theorem c2_excluded_skipped (src t : FSTree) (gi : Path → Bool) (rel : Path)
    (d0 d : Dest) (p : Path) (fd : FileData)
    (hl : lookupPath src rel = some t) (hwf : wf t = true)
    (hrun : copyNotGitignoreTree src gi rel d0 = Except.ok d)
    (hmem : (p, fd) ∈ filesOf t rel) (hgi : gi p = true)
    (h0 : getD d0 p = none) : getD d p = none := by
  rw [copyNotGitignoreTree_some hl, copyTree_eq_processFiles] at hrun
  have hinc := wf_incomp t rel hwf
  rcases processFiles_frame gi (filesOf t rel) d0 d hrun p with
    h1 | ⟨p', fd', hmem', hgi', hsh⟩
  · rw [h1, h0]
  · exfalso
    by_cases hpe : p' = p
    · rw [hpe, hgi] at hgi'
      cases hgi'
    · have hne : (p, fd) ≠ (p', fd') := by
        intro he
        exact hpe (congrArg Prod.fst he).symm
      obtain ⟨hA, hB⟩ :=
        List.Pairwise.forall pathsIncomp_symm hinc hmem hmem' hne
      rcases hsh with (heq | heq) | ⟨hpfx, _, _, _⟩
      · exact hpe heq.symm
      · exact hB (heq ▸ pfx_snoc_self p' (baseName p'))
      · exact hA (pfx_trans hpfx (dropLast_pfx p'))

/-- C3 (confirmed): the exclusion predicate is consulted only on the
mirrored relative paths of leaf files, never on a directory's own path:
two predicates that agree on every file path of the subtree produce
identical runs, so a directory is always descended into even when a
pattern would match the directory path itself. -/
theorem c3_leaf_only_exclusion (src t : FSTree) (gi gi' : Path → Bool)
    (rel : Path) (d : Dest) (hl : lookupPath src rel = some t)
    (hagree : ∀ p fd, (p, fd) ∈ filesOf t rel → gi p = gi' p) :
    copyNotGitignoreTree src gi rel d = copyNotGitignoreTree src gi' rel d := by
  rw [copyNotGitignoreTree_some hl, copyNotGitignoreTree_some hl,
    copyTree_eq_processFiles, copyTree_eq_processFiles]
  exact processFiles_congr (filesOf t rel) d
    (fun pf hm => hagree pf.1 pf.2 hm)

/-- C4 (counterexample): the claim fails as stated.  When the source path
does not exist but the entry is excluded, the call does not fail with
NotFound: the missing path takes the non-directory branch and the
exclusion check returns before any copy is attempted, so the call
succeeds silently. -/
theorem c4_counterexample :
    lookupPath (FSTree.dir []) ["x"] = none ∧
    copyNotGitignoreTree (FSTree.dir []) (fun _ => true) ["x"] [] =
      Except.ok [] :=
  ⟨rfl, rfl⟩

/-- C4 (amended): when the source path does not exist and the entry is
not excluded, the call fails with the NotFound condition, provided the
creation of the destination parent directories does not itself fail (no
ancestor of the target is an existing regular file); note the parent
directories may already have been created when the failure is raised. -/
theorem c4_missing_notfound (src : FSTree) (gi : Path → Bool) (rel : Path)
    (d : Dest) (hl : lookupPath src rel = none) (hgi : gi rel = false)
    (hnf : ∀ r fd, r <+: rel.dropLast → r ≠ [] →
      getD d r ≠ some (DEntry.file fd)) :
    copyNotGitignoreTree src gi rel d =
      Except.error (CopyErr.notFound rel) := by
  rw [copyNotGitignoreTree_none hl, if_neg (by simp [hgi])]
  have hok : ∃ d1, ensureParent d rel = Except.ok d1 := by
    rw [ensureParent]
    by_cases hd : isdirD d rel.dropLast
    · rw [if_pos hd]
      exact ⟨d, rfl⟩
    · rw [if_neg hd]
      exact mkdirs_ok rel.dropLast d []
        (fun r fd hr hr0 => by simpa using hnf r fd hr hr0)
  obtain ⟨d1, h1⟩ := hok
  rw [h1]

/-- C5 (confirmed): running the copier a second time with the same source
tree, entry and predicate, starting from the destination produced by a
successful first run with none of its contents deleted, succeeds again and
leaves the destination extensionally unchanged: both runs yield the same
set of copied files with identical content. -/
theorem c5_idempotent (src t : FSTree) (gi : Path → Bool) (rel : Path)
    (d0 d1 : Dest) (hl : lookupPath src rel = some t) (hwf : wf t = true)
    (hdwf : destWFb d0 = true)
    (hrun : copyNotGitignoreTree src gi rel d0 = Except.ok d1) :
    ∃ d2, copyNotGitignoreTree src gi rel d1 = Except.ok d2 ∧
      ∀ q, getD d2 q = getD d1 q := by
  rw [copyNotGitignoreTree_some hl, copyTree_eq_processFiles] at hrun ⊢
  obtain ⟨_, hpost⟩ := processFiles_main gi (filesOf t rel) d0 d1
    (wf_incomp t rel hwf) (destWFb_DestWF hdwf) hrun
  refine processFiles_noop gi (filesOf t rel) d1 d1 ?_ (fun q => rfl)
  intro p fd hmem hgip
  obtain ⟨c1, c2, c3⟩ := hpost p fd hmem hgip
  constructor
  · by_cases hp : p.dropLast = []
    · simp [isdirD, hp]
    · rw [isdirD_true_iff]
      right
      refine c1 p.dropLast (dropLast_pfx p) ?_ hp
      intro he
      have h1 : p.dropLast.length = p.length - 1 := by simp
      have h2 : p ≠ [] := by
        rintro rfl
        exact hp rfl
      have h3 : 0 < p.length := List.length_pos.mpr h2
      rw [he] at h1
      omega
  · by_cases hd : getD d0 p = some DEntry.dir
    · exact Or.inr (c3 hd)
    · exact Or.inl (c2 hd)

/-- C6 (counterexample): the claim fails as stated.  The destination
already holds a directory at the mirrored path `["f"]` of the visited
source file and a regular file below it at `["f", "f"]`.  The run
completes successfully, yet the pre-existing file at `["f", "f"]` — a path
that is not the mirrored path of any visited entry (`["f"]` is the only
mirrored path) — no longer holds its original content: `shutil.copy2`
copied into the directory and overwrote it. -/
theorem c6_counterexample :
    copyNotGitignoreTree
        (FSTree.dir [("f", FSTree.file (FileData.mk [1] 1 1))])
        (fun _ => false) ["f"]
        [(["f"], DEntry.dir), (["f", "f"], DEntry.file (FileData.mk [9] 9 9))] =
      Except.ok [((["f", "f"] : Path), DEntry.file (FileData.mk [1] 1 1)),
        ((["f"] : Path), DEntry.dir),
        ((["f", "f"] : Path), DEntry.file (FileData.mk [9] 9 9))] ∧
    filesOf (FSTree.file (FileData.mk [1] 1 1)) ["f"] =
      [((["f"] : Path), FileData.mk [1] 1 1)] ∧
    getD [(["f"], DEntry.dir),
        (["f", "f"], DEntry.file (FileData.mk [9] 9 9))] ["f", "f"] =
      some (DEntry.file (FileData.mk [9] 9 9)) ∧
    getD [((["f", "f"] : Path), DEntry.file (FileData.mk [1] 1 1)),
        ((["f"] : Path), DEntry.dir),
        ((["f", "f"] : Path), DEntry.file (FileData.mk [9] 9 9))] ["f", "f"] ≠
      some (DEntry.file (FileData.mk [9] 9 9)) :=
  ⟨rfl, rfl, rfl, by decide⟩

/-- C6 (amended): provided the destination holds no pre-existing directory
at the mirrored path of any non-excluded source file, a successful run
changes the destination only at mirrored paths of visited files and at
their proper nonempty ancestors, the latter only by creating a directory
where nothing existed; every other path keeps its previous content.  (The
source side is immutable by construction in this embedding: the copier
consumes the source tree purely.) -/
theorem c6_frame (src t : FSTree) (gi : Path → Bool) (rel : Path)
    (d0 d : Dest) (hl : lookupPath src rel = some t) (hwf : wf t = true)
    (hnd : ∀ p fd, (p, fd) ∈ filesOf t rel → gi p = false →
      getD d0 p ≠ some DEntry.dir)
    (hrun : copyNotGitignoreTree src gi rel d0 = Except.ok d) :
    ∀ q, getD d q = getD d0 q ∨
      ∃ p fd, (p, fd) ∈ filesOf t rel ∧ gi p = false ∧
        (q = p ∨ (q <+: p.dropLast ∧ q ≠ [] ∧ getD d0 q = none ∧
          getD d q = some DEntry.dir)) := by
  rw [copyNotGitignoreTree_some hl, copyTree_eq_processFiles] at hrun
  exact processFiles_cleanframe gi (filesOf t rel) d0 d
    (wf_incomp t rel hwf) hnd hrun

/-- C7 (confirmed): when every file reachable from the entry is excluded
(in particular when the entry subtree contains no file at all, as for an
empty directory), the run succeeds and returns the destination literally
unchanged: no file is copied and no directory is created — directory
creation is lazy. -/
theorem c7_all_excluded_noop (src t : FSTree) (gi : Path → Bool)
    (rel : Path) (d : Dest) (hl : lookupPath src rel = some t)
    (hexcl : ∀ p fd, (p, fd) ∈ filesOf t rel → gi p = true) :
    copyNotGitignoreTree src gi rel d = Except.ok d := by
  rw [copyNotGitignoreTree_some hl, copyTree_eq_processFiles]
  exact processFiles_skipAll gi (filesOf t rel)
    (fun pf hm => hexcl pf.1 pf.2 hm) d

/-- C8 (confirmed): when the source path does not exist and the entry is
excluded, the call is a silent no-op: it returns successfully with the
destination untouched, because the missing path falls into the
non-directory branch and the exclusion check fires before any filesystem
operation. -/
theorem c8_missing_excluded_silent (src : FSTree) (gi : Path → Bool)
    (rel : Path) (d : Dest) (hl : lookupPath src rel = none)
    (hgi : gi rel = true) :
    copyNotGitignoreTree src gi rel d = Except.ok d := by
  rw [copyNotGitignoreTree_none hl, if_pos]
  rw [hgi]

/-- C9 (counterexample): the claim fails as stated.  The copier enumerates
a directory's children in the order returned by the directory listing
(`os.listdir`), not in lexicographic order: for a directory whose listing
yields `"b"` before `"a"`, the walk processes the file `["b"]` before
`["a"]` (the flat list the run folds over is exactly `filesOf`, in listing
order), although `"a" < "b"` lexicographically. -/
theorem c9_counterexample :
    filesOf (FSTree.dir [("b", FSTree.file (FileData.mk [2] 2 2)),
        ("a", FSTree.file (FileData.mk [1] 1 1))]) [] =
      [((["b"] : Path), FileData.mk [2] 2 2),
        ((["a"] : Path), FileData.mk [1] 1 1)] ∧
    copyNotGitignoreTree
        (FSTree.dir [("b", FSTree.file (FileData.mk [2] 2 2)),
          ("a", FSTree.file (FileData.mk [1] 1 1))])
        (fun _ => false) [] [] =
      processFiles (fun _ => false)
        [((["b"] : Path), FileData.mk [2] 2 2),
          ((["a"] : Path), FileData.mk [1] 1 1)] [] ∧
    "a".data < "b".data :=
  ⟨rfl, rfl, by decide⟩

/-- C9 (amended): the enumeration follows the directory listing order,
which need not be lexicographic; however the enumeration order is not
semantically significant: two source trees whose file lists are
permutations of one another (the same directory contents listed in
different orders) produce, from the same wellformed destination free of
pre-existing directories at non-excluded mirrored file paths, extensionally
identical destinations whenever both runs succeed — so the output is
reproducible for fixed tree contents. -/
theorem c9_order_independent (src src' t t' : FSTree) (gi : Path → Bool)
    (rel : Path) (d0 d d' : Dest)
    (hl : lookupPath src rel = some t)
    (hl' : lookupPath src' rel = some t')
    (hwf : wf t = true) (hwf' : wf t' = true)
    (hperm : List.Perm (filesOf t rel) (filesOf t' rel))
    (hdwf : destWFb d0 = true)
    (hnd : ∀ p fd, (p, fd) ∈ filesOf t rel → gi p = false →
      getD d0 p ≠ some DEntry.dir)
    (h1 : copyNotGitignoreTree src gi rel d0 = Except.ok d)
    (h2 : copyNotGitignoreTree src' gi rel d0 = Except.ok d') :
    ∀ q, getD d q = getD d' q := by
  rw [copyNotGitignoreTree_some hl, copyTree_eq_processFiles] at h1
  rw [copyNotGitignoreTree_some hl', copyTree_eq_processFiles] at h2
  have hinc := wf_incomp t rel hwf
  have hinc' := wf_incomp t' rel hwf'
  have hDW := destWFb_DestWF hdwf
  have hnd' : ∀ p fd, (p, fd) ∈ filesOf t' rel → gi p = false →
      getD d0 p ≠ some DEntry.dir :=
    fun p fd hm hg => hnd p fd (hperm.mem_iff.mpr hm) hg
  obtain ⟨_, hpost1⟩ :=
    processFiles_main gi (filesOf t rel) d0 d hinc hDW h1
  obtain ⟨_, hpost2⟩ :=
    processFiles_main gi (filesOf t' rel) d0 d' hinc' hDW h2
  have frame1 :=
    processFiles_cleanframe gi (filesOf t rel) d0 d hinc hnd h1
  have frame2 :=
    processFiles_cleanframe gi (filesOf t' rel) d0 d' hinc' hnd' h2
  intro q
  by_cases hq1 : ∃ p fd, (p, fd) ∈ filesOf t rel ∧ gi p = false ∧ q = p
  · obtain ⟨p, fd, hm, hg, heq⟩ := hq1
    have v1 := (hpost1 p fd hm hg).2.1 (hnd p fd hm hg)
    have v2 := (hpost2 p fd (hperm.mem_iff.mp hm) hg).2.1 (hnd p fd hm hg)
    rw [heq, v1, v2]
  · by_cases hq2 : ∃ p fd, (p, fd) ∈ filesOf t rel ∧ gi p = false ∧
        q <+: p.dropLast ∧ q ≠ []
    · obtain ⟨p, fd, hm, hg, hpfx, hne⟩ := hq2
      have hprop : q <+: p ∧ q ≠ p := by
        have hp0 : p ≠ [] := by
          rintro rfl
          obtain ⟨s, hs⟩ := hpfx
          simp at hs
          exact hne hs.1
        exact proper_of_pfx_dropLast hp0 hpfx
      have v1 := (hpost1 p fd hm hg).1 q hprop.1 hprop.2 hne
      have v2 := (hpost2 p fd (hperm.mem_iff.mp hm) hg).1 q
        hprop.1 hprop.2 hne
      rw [v1, v2]
    · rcases frame1 q with hA | ⟨p, fd, hm, hg, hsh⟩
      · rcases frame2 q with hB | ⟨p, fd, hm', hg, hsh'⟩
        · rw [hA, hB]
        · exfalso
          have hm1 : (p, fd) ∈ filesOf t rel := hperm.mem_iff.mpr hm'
          rcases hsh' with heq | ⟨ha, hb, _, _⟩
          · exact hq1 ⟨p, fd, hm1, hg, heq⟩
          · exact hq2 ⟨p, fd, hm1, hg, ha, hb⟩
      · exfalso
        rcases hsh with heq | ⟨ha, hb, _, _⟩
        · exact hq1 ⟨p, fd, hm, hg, heq⟩
        · exact hq2 ⟨p, fd, hm, hg, ha, hb⟩

/-- C10 (confirmed): the recursion of the copier is bounded by the depth
of the source subtree reached by the entry: the fuel-indexed copier
`copyFuel`, written exactly in the shape of the recursive Python function
(re-resolving the path at each call) and charged one unit of fuel per
nesting level, agrees with the total function as soon as the fuel exceeds
the reached subtree's depth — so on every finite, cycle-free source tree
the recursion terminates after at most depth-many nested calls. -/
theorem c10_fuel_bound (src : FSTree) (gi : Path → Bool) (rel : Path)
    (d : Dest) (n : Nat) (hwf : wf src = true)
    (hn : reachDepth src rel < n) :
    copyFuel src gi n rel d = copyNotGitignoreTree src gi rel d :=
  copyFuel_eq src gi hwf n rel d hn

/-! ### Witnesses: the claims exercised on concrete inputs -/

/-- Witness for C1 on concrete data: copying entry `a` of `sampleTree`
into an empty destination copies `a/b.txt` with its content and metadata
and creates the directory `a`. -/
theorem c1_copy_correct_witness :
    copyNotGitignoreTree sampleTree sampleGi ["a"] [] =
      Except.ok sampleOut ∧
    sampleGi ["a", "b.txt"] = false ∧
    getD sampleOut ["a", "b.txt"] = some (DEntry.file fileB) ∧
    (∀ r, r <+: (["a", "b.txt"] : Path) → r ≠ ["a", "b.txt"] → r ≠ [] →
      getD sampleOut r = some DEntry.dir) := by
  have h := c1_copy_correct sampleTree sampleSub sampleGi ["a"] [] sampleOut
    ["a", "b.txt"] fileB rfl (by decide) (by decide) rfl (by decide) rfl
    (by decide)
  exact ⟨rfl, rfl, h.1, h.2⟩

/-- Witness for C2 on concrete data: the excluded `a/c.log` is absent from
the destination after the run. -/
theorem c2_excluded_skipped_witness :
    copyNotGitignoreTree sampleTree sampleGi ["a"] [] =
      Except.ok sampleOut ∧
    sampleGi ["a", "c.log"] = true ∧
    getD sampleOut ["a", "c.log"] = none := by
  have h := c2_excluded_skipped sampleTree sampleSub sampleGi ["a"] []
    sampleOut ["a", "c.log"] fileC rfl (by decide) rfl (by decide) rfl rfl
  exact ⟨rfl, rfl, h⟩

/-- Witness for C3 on concrete data: a predicate that matches the
directory path `["d"]` itself produces the same run as one that excludes
nothing, because the predicate is only consulted on file paths. -/
theorem c3_leaf_only_exclusion_witness :
    (fun p => p == (["d"] : Path)) (["d"] : Path) = true ∧
    copyNotGitignoreTree dTree (fun p => p == (["d"] : Path)) ["d"] [] =
      copyNotGitignoreTree dTree (fun _ => false) ["d"] [] := by
  refine ⟨rfl, ?_⟩
  refine c3_leaf_only_exclusion dTree dSub (fun p => p == (["d"] : Path))
    (fun _ => false) ["d"] [] rfl ?_
  intro p fd h
  have h' : (p, fd) ∈ [((["d", "x"] : Path), fileB)] := h
  simp at h'
  rw [h'.1]
  decide

/-- Witness for C4 on concrete data: a missing, non-excluded entry makes
the run fail with the NotFound condition. -/
theorem c4_missing_notfound_witness :
    lookupPath (FSTree.dir []) ["x"] = none ∧
    copyNotGitignoreTree (FSTree.dir []) (fun _ => false) ["x"] [] =
      Except.error (CopyErr.notFound ["x"]) := by
  refine ⟨rfl, ?_⟩
  refine c4_missing_notfound (FSTree.dir []) (fun _ => false) ["x"] []
    rfl rfl ?_
  intro r fd hr hr0
  obtain ⟨s, hs⟩ := hr
  cases r with
  | nil => exact absurd rfl hr0
  | cons a l => simp at hs

/-- Witness for C5 on concrete data: re-running the copy on its own
output succeeds and leaves the destination extensionally unchanged. -/
theorem c5_idempotent_witness :
    copyNotGitignoreTree sampleTree sampleGi ["a"] [] =
      Except.ok sampleOut ∧
    (∃ d2, copyNotGitignoreTree sampleTree sampleGi ["a"] sampleOut =
      Except.ok d2 ∧ ∀ q, getD d2 q = getD sampleOut q) :=
  ⟨rfl, c5_idempotent sampleTree sampleSub sampleGi ["a"] [] sampleOut rfl
    (by decide) (by decide) rfl⟩

/-- Witness for C6 on concrete data: with an unrelated pre-existing file
at `["z"]`, the run only adds the copied file and its parent directory,
and every path is either unchanged or accounted for by a visited file. -/
theorem c6_frame_witness :
    copyNotGitignoreTree sampleTree sampleGi ["a"]
        [(["z"], DEntry.file fileC)] =
      Except.ok [((["a", "b.txt"] : Path), DEntry.file fileB),
        ((["a"] : Path), DEntry.dir), ((["z"] : Path), DEntry.file fileC)] ∧
    (∀ q, getD [((["a", "b.txt"] : Path), DEntry.file fileB),
        ((["a"] : Path), DEntry.dir),
        ((["z"] : Path), DEntry.file fileC)] q =
        getD [((["z"] : Path), DEntry.file fileC)] q ∨
      ∃ p fd, (p, fd) ∈ filesOf sampleSub ["a"] ∧ sampleGi p = false ∧
        (q = p ∨ (q <+: p.dropLast ∧ q ≠ [] ∧
          getD [((["z"] : Path), DEntry.file fileC)] q = none ∧
          getD [((["a", "b.txt"] : Path), DEntry.file fileB),
            ((["a"] : Path), DEntry.dir),
            ((["z"] : Path), DEntry.file fileC)] q = some DEntry.dir))) := by
  refine ⟨rfl, ?_⟩
  refine c6_frame sampleTree sampleSub sampleGi ["a"] _ _ rfl (by decide)
    ?_ rfl
  intro p fd h hg
  have h' : (p, fd) ∈ [((["a", "b.txt"] : Path), fileB),
    ((["a", "c.log"] : Path), fileC)] := h
  simp at h'
  rcases h' with ⟨h1, _⟩ | ⟨h1, _⟩ <;> rw [h1] <;> decide

/-- Witness for C7 on concrete data: an entry all of whose files are
excluded leaves the destination literally untouched and does not fail. -/
theorem c7_all_excluded_noop_witness :
    copyNotGitignoreTree eTree (fun p => baseName p == "x.log") ["e"]
        [(["keep"], DEntry.file fileB)] =
      Except.ok [(["keep"], DEntry.file fileB)] := by
  refine c7_all_excluded_noop eTree eSub (fun p => baseName p == "x.log")
    ["e"] [(["keep"], DEntry.file fileB)] rfl ?_
  intro p fd h
  have h' : (p, fd) ∈ [((["e", "x.log"] : Path), fileC)] := h
  simp at h'
  rw [h'.1]
  decide

/-- Witness for C8 on concrete data: a missing, excluded entry returns
successfully with the destination untouched. -/
theorem c8_missing_excluded_silent_witness :
    lookupPath (FSTree.dir []) ["x"] = none ∧
    copyNotGitignoreTree (FSTree.dir []) (fun _ => true) ["x"]
        [(["y"], DEntry.dir)] = Except.ok [(["y"], DEntry.dir)] :=
  ⟨rfl, c8_missing_excluded_silent (FSTree.dir []) (fun _ => true) ["x"]
    [(["y"], DEntry.dir)] rfl rfl⟩

/-- Witness for C9 on concrete data: listing the same two files in the
two possible orders yields extensionally identical destinations. -/
theorem c9_order_independent_witness :
    List.Perm (filesOf twoBA []) (filesOf twoAB []) ∧
    copyNotGitignoreTree twoBA (fun _ => false) [] [] =
      Except.ok [((["a"] : Path), DEntry.file fileB),
        ((["b"] : Path), DEntry.file fileC)] ∧
    copyNotGitignoreTree twoAB (fun _ => false) [] [] =
      Except.ok [((["b"] : Path), DEntry.file fileC),
        ((["a"] : Path), DEntry.file fileB)] ∧
    (∀ q, getD [((["a"] : Path), DEntry.file fileB),
        ((["b"] : Path), DEntry.file fileC)] q =
      getD [((["b"] : Path), DEntry.file fileC),
        ((["a"] : Path), DEntry.file fileB)] q) := by
  refine ⟨by decide, rfl, rfl, ?_⟩
  refine c9_order_independent twoBA twoAB twoBA twoAB (fun _ => false)
    [] [] _ _ rfl rfl (by decide) (by decide) (by decide) (by decide)
    ?_ rfl rfl
  intro p fd h hg
  simp [getD]

/-- Witness for C10 on concrete data: three units of fuel are enough for
the depth-one subtree at entry `a`, and the fuel-indexed run agrees with
the total one. -/
theorem c10_fuel_bound_witness :
    wf sampleTree = true ∧ reachDepth sampleTree ["a"] < 3 ∧
    copyFuel sampleTree sampleGi 3 ["a"] [] =
      copyNotGitignoreTree sampleTree sampleGi ["a"] [] :=
  ⟨by decide, by decide, c10_fuel_bound sampleTree sampleGi ["a"] [] 3
    (by decide) (by decide)⟩

end CreateRelease
